import Mathlib

/-!
Verification of the Entis entity-component-system core.

This development gives a shallow embedding of the Entis library
(`sparse_set.h`, `registry.h`, `config.h`, `error.h`) and proves or
refutes the specification claims about it.

Conventions of the embedding:
* `id_t` is `uint32_t` in `config.h`; entity ids are modelled as `Nat`
  together with the constant `MAX_ID = 2^32 - 1`.  A value of type
  `id_t` is always `≤ MAX_ID`, so operations that take an id carry the
  side condition `e ≤ MAX_ID` in the reachability relation.
* `std::vector` is `List`, indexing is `List.getD`, `push_back` is
  append, `pop_back` is `dropLast`.
* `std::optional` is `Option`; a returned `const T&` is modelled by the
  value it refers to.
* The heterogeneous store map `unordered_map<string, shared_ptr<IComponentManager>>`
  is modelled as a function from an abstract key type `κ` (the per-type
  key) to `Option` of a sparse set; all component values live in a
  single type `V`, which loses nothing because the claims never mix
  values across stores.
* Allocation failure and id exhaustion are fatal per the specification
  (§4.C, §7); the reachability relation therefore only steps
  `make_entity` while `entities.length < MAX_ID`.
-/

namespace Entis

/-- `MAX_ID = std::numeric_limits<uint32_t>::max()` from `config.h`. -/
def MAX_ID : Nat := 2 ^ 32 - 1

/-! ### Generic list helper lemmas (indexing via `getD`) -/

theorem getD_eq_get {α : Type} (l : List α) (i : Nat) (d : α) (h : i < l.length) :
    l.getD i d = l.get ⟨i, h⟩ := by
  rw [List.getD_eq_getD_get?, List.get?_eq_get h]
  rfl

theorem getD_set_self {α : Type} (l : List α) (i : Nat) (v d : α) (h : i < l.length) :
    (l.set i v).getD i d = v := by
  rw [List.getD_eq_getD_get?, List.get?_set_eq]
  rw [List.get?_eq_get h]
  rfl

theorem getD_set_other {α : Type} (l : List α) (i j : Nat) (v d : α) (h : i ≠ j) :
    (l.set i v).getD j d = l.getD j d := by
  rw [List.getD_eq_getD_get?, List.get?_set_ne _ _ h, ← List.getD_eq_getD_get?]

theorem set_getD_self {α : Type} (l : List α) (i : Nat) (d : α) (h : i < l.length) :
    l.set i (l.getD i d) = l := by
  induction l generalizing i with
  | nil => simp at h
  | cons a t ih =>
    cases i with
    | zero => simp [List.set]
    | succ n =>
      simp only [List.set, List.getD, List.get?, List.length_cons] at *
      rw [ih n (Nat.lt_of_succ_lt_succ h)]

theorem getD_replicate {α : Type} (n i : Nat) (a d : α) (h : i < n) :
    (List.replicate n a).getD i d = a := by
  induction n generalizing i with
  | zero => omega
  | succ m ih =>
    cases i with
    | zero => rfl
    | succ j =>
      simp only [List.replicate]
      show (List.replicate m a).getD j d = a
      exact ih j (by omega)

theorem getD_take {α : Type} (l : List α) (i j : Nat) (d : α) (h : i < j) :
    (l.take j).getD i d = l.getD i d := by
  rw [List.getD_eq_getD_get?, List.get?_take h, ← List.getD_eq_getD_get?]

theorem take_set_of_le {α : Type} (l : List α) (i j : Nat) (v : α) (h : j ≤ i) :
    (l.set i v).take j = l.take j := by
  induction l generalizing i j with
  | nil => simp
  | cons a t ih =>
    cases i with
    | zero =>
      have : j = 0 := Nat.le_zero.mp h
      simp [this]
    | succ n =>
      cases j with
      | zero => simp
      | succ m =>
        simp only [List.set, List.take]
        rw [ih n m (Nat.le_of_succ_le_succ h)]

theorem getD_dropLast {α : Type} (l : List α) (i : Nat) (d : α) (h : i < l.length - 1) :
    l.dropLast.getD i d = l.getD i d := by
  rw [List.dropLast_eq_take, getD_take _ _ _ _ h]

theorem dropLast_set_last {α : Type} (l : List α) (v : α) :
    (l.set (l.length - 1) v).dropLast = l.dropLast := by
  rw [List.dropLast_eq_take, List.dropLast_eq_take, List.length_set,
    take_set_of_le _ _ _ _ (Nat.le_refl _)]

theorem getLast?_set_last {α : Type} (l : List α) (v : α) (h : 0 < l.length) :
    (l.set (l.length - 1) v).getLast? = some v := by
  rw [List.getLast?_eq_get?, List.length_set, List.get?_set_eq]
  rw [List.get?_eq_get (by omega)]
  rfl

theorem dropLast_set_ge {α : Type} (l : List α) (m : Nat) (v : α) (hm : l.length - 1 ≤ m) :
    (l.set m v).dropLast = l.dropLast := by
  rw [List.dropLast_eq_take, List.dropLast_eq_take, List.length_set,
    take_set_of_le _ _ _ _ hm]

theorem getLast?_set_eq_last {α : Type} (l : List α) (m : Nat) (v : α)
    (hm : m = l.length - 1) (h0 : 0 < l.length) : (l.set m v).getLast? = some v := by
  rw [hm]
  exact getLast?_set_last l v h0

theorem mem_getD {α : Type} {l : List α} {a : α} (d : α) (h : a ∈ l) :
    ∃ i, i < l.length ∧ l.getD i d = a := by
  rcases List.mem_iff_get?.mp h with ⟨n, hn⟩
  have hlt : n < l.length := by
    by_contra hc
    rw [List.get?_len_le (by omega)] at hn
    exact Option.noConfusion hn
  exact ⟨n, hlt, by rw [List.getD_eq_getD_get?, hn]; rfl⟩

theorem getD_mem {α : Type} (l : List α) (i : Nat) (d : α) (h : i < l.length) :
    l.getD i d ∈ l := by
  rw [getD_eq_get l i d h]
  exact List.get_mem l i h

/-! ### `BindError` (`error.h`): the closed error enumeration. -/

inductive BindError where
  | INVALID_KEY
  | DEAD_ENTITY
deriving DecidableEq, Repr

/-! ### `SparseSet<T>` (`sparse_set.h`) -/

/-- State of `SparseSet<T>`: the `sparse_`, `dense_` and `data_` vectors. -/
structure SSet (V : Type) where
  sparse : List Nat
  dense : List Nat
  data : List V
deriving DecidableEq

/-- The default-constructed empty sparse set. -/
def SSet.empty {V : Type} : SSet V := ⟨[], [], []⟩

/-- `SparseSet::is_null_key`: the key equals `MAX_ID`. -/
def is_null_key (key : Nat) : Bool := decide (key = MAX_ID)

/-- `SparseSet::out_of_bounds`: the key does not index `sparse_`. -/
def SSet.out_of_bounds {V : Type} (s : SSet V) (key : Nat) : Bool :=
  decide (key ≥ s.sparse.length)

/-- `SparseSet::has_data`: in bounds and the sparse cell is not null. -/
def SSet.has_data {V : Type} (s : SSet V) (key : Nat) : Bool :=
  !(s.out_of_bounds key || is_null_key (s.sparse.getD key 0))

/-- `SparseSet::get_data`: the value at `data_[sparse_[key]]` when present. -/
def SSet.get_data {V : Type} (s : SSet V) (key : Nat) : Option V :=
  if s.has_data key then s.data.get? (s.sparse.getD key 0) else none

/-- Net in-bounds effect of `SparseSet::rezise`: `sparse_.resize(key + 1)`
followed by `std::fill(begin + from, end + to, MAX_ID)`.  The fill covers
every in-bounds cell from the old length up, so the new tail is all
`MAX_ID`.  (The fill range also overshoots the end of the vector; that
overshoot is modelled by `rezise_fill_until` below.) -/
def SSet.rezise {V : Type} (s : SSet V) (key : Nat) : SSet V :=
  { s with sparse := s.sparse ++ List.replicate (key + 1 - s.sparse.length) MAX_ID }

/-- Index of the first cell written by the `std::fill` in
`SparseSet::rezise`, namely `begin + from` with `from = sparse_.size()`
taken before the resize. -/
def rezise_fill_from (sparseLen : Nat) : Nat := sparseLen

/-- One past the index of the last cell written by the `std::fill` in
`SparseSet::rezise`, namely `end + to` where `end` is the end iterator of
the vector grown to `key + 1` cells and `to = key - sparse_.size()` with
the size taken before the resize.  The fill therefore touches indices
`[from, (key + 1) + (key - sparseLen))`. -/
def rezise_fill_until (sparseLen key : Nat) : Nat := (key + 1) + (key - sparseLen)

/-- `SparseSet::bind`. -/
def SSet.bind {V : Type} (s : SSet V) (key : Nat) (v : V) : SSet V × Option BindError :=
  if is_null_key key then (s, some .INVALID_KEY)
  else
    let s1 := if s.out_of_bounds key then s.rezise key else s
    if !(s1.has_data key) then
      ({ sparse := s1.sparse.set key s1.dense.length,
         dense := s1.dense ++ [key],
         data := s1.data ++ [v] }, none)
    else
      ({ s1 with data := s1.data.set (s1.sparse.getD key 0) v }, none)

/-- `std::swap(l[i], l[j])`; invalid indices are left untouched (the C++
call is only ever made with valid ones). -/
def listSwap {α : Type} (l : List α) (i j : Nat) : List α :=
  match l.get? i, l.get? j with
  | some a, some b => (l.set i b).set j a
  | _, _ => l

/-- `SparseSet::unbind`, following the source order: read
`packed_index = sparse_[key]`, write `sparse_[dense_.back()] = packed_index`,
write `sparse_[key] = MAX_ID`, swap `dense_[packed_index]` with
`dense_.back()` and `data_[packed_index]` with `data_.back()`, move out the
back of `data_`, pop both backs. -/
def SSet.unbind {V : Type} (s : SSet V) (key : Nat) : SSet V × Option V :=
  if s.has_data key then
    let packed_index := s.sparse.getD key 0
    let sp1 := s.sparse.set (s.dense.getD (s.dense.length - 1) 0) packed_index
    let sp2 := sp1.set key MAX_ID
    let dense1 := listSwap s.dense packed_index (s.dense.length - 1)
    let data1 := listSwap s.data packed_index (s.data.length - 1)
    ({ sparse := sp2, dense := dense1.dropLast, data := data1.dropLast }, data1.getLast?)
  else (s, none)

/-- `SparseSet::delete_component` (the erased `IComponentManager::delete_component`):
`unbind` with the value dropped. -/
def SSet.delete_component {V : Type} (s : SSet V) (e : Nat) : SSet V :=
  (s.unbind e).1

/-- Modelled from the spec: the reference removal algorithm of §4.A
`unbind` — "let `i = sparse[key]` and `last = len(dense)-1`; swap
`dense[i]↔dense[last]` and `data[i]↔data[last]`; set `sparse[dense[i]] = i`
(the back element's sparse index); set `sparse[key] = NULL_ID`; pop and
return the last element of `data`; pop the last of `dense`".  Used only to
compare against the implemented `SSet.unbind` (claim C8). -/
def SSet.unbind_spec {V : Type} (s : SSet V) (key : Nat) : SSet V × Option V :=
  if s.has_data key then
    let i := s.sparse.getD key 0
    let last := s.dense.length - 1
    let dense1 := listSwap s.dense i last
    let data1 := listSwap s.data i (s.data.length - 1)
    let sp1 := s.sparse.set (dense1.getD i 0) i
    let sp2 := sp1.set key MAX_ID
    ({ sparse := sp2, dense := dense1.dropLast, data := data1.dropLast }, data1.getLast?)
  else (s, none)

/-! ### `Registry` (`registry.h`) -/

/-- State of `Registry`: `current_` (free-list head), `entities_`, and the
map of component managers keyed by the per-type key. -/
structure Registry (κ V : Type) where
  current : Nat
  entities : List Nat
  stores : κ → Option (SSet V)

/-- The default-constructed registry: `current_ = MAX_ID`, no entities,
no component managers. -/
def Registry.empty {κ V : Type} : Registry κ V :=
  ⟨MAX_ID, [], fun _ => none⟩

/-- `Registry::make_new_entity`. -/
def Registry.make_new_entity {κ V : Type} (r : Registry κ V) : Nat × Registry κ V :=
  (r.entities.length, { r with entities := r.entities ++ [r.entities.length] })

/-- `Registry::recycle_entity`. -/
def Registry.recycle_entity {κ V : Type} (r : Registry κ V) : Nat × Registry κ V :=
  (r.current,
    { r with
      current := r.entities.getD r.current 0
      entities := r.entities.set r.current r.current })

/-- `Registry::make_entity`. -/
def Registry.make_entity {κ V : Type} (r : Registry κ V) : Nat × Registry κ V :=
  if r.current = MAX_ID then r.make_new_entity else r.recycle_entity

/-- `Registry::is_alive`. -/
def Registry.is_alive {κ V : Type} (r : Registry κ V) (e : Nat) : Bool :=
  decide (e < r.entities.length) && decide (r.entities.getD e 0 = e)

/-- `Registry::mark_as_death`. -/
def Registry.mark_as_death {κ V : Type} (r : Registry κ V) (e : Nat) : Registry κ V :=
  { r with entities := r.entities.set e r.current, current := e }

/-- `Registry::delete_all_components`: call `delete_component` on every
registered store. -/
def Registry.delete_all_components {κ V : Type} (r : Registry κ V) (e : Nat) : Registry κ V :=
  { r with stores := fun k => (r.stores k).map (fun m => m.delete_component e) }

/-- `Registry::kill_entity`. -/
def Registry.kill_entity {κ V : Type} (r : Registry κ V) (e : Nat) : Registry κ V :=
  if r.is_alive e then (r.mark_as_death e).delete_all_components e else r

/-- `Registry::has_component<T>`. -/
def Registry.has_component {κ V : Type} (r : Registry κ V) (k : κ) (e : Nat) : Bool :=
  match r.stores k with
  | some m => m.has_data e
  | none => false

/-- `Registry::get_component<T>`. -/
def Registry.get_component {κ V : Type} (r : Registry κ V) (k : κ) (e : Nat) : Option V :=
  match r.stores k with
  | some m => m.get_data e
  | none => none

/-- `Registry::bind<T>`: `DEAD_ENTITY` for a dead entity, otherwise
fetch-or-create the store (`make_component_manager` installs a fresh
`SparseSet<T>` in the map) and delegate to the store's `bind`. -/
def Registry.bind {κ V : Type} [DecidableEq κ] (r : Registry κ V) (k : κ) (e : Nat) (v : V) :
    Registry κ V × Option BindError :=
  if !(r.is_alive e) then (r, some .DEAD_ENTITY)
  else
    let m := (r.stores k).getD SSet.empty
    let res := m.bind e v
    ({ r with stores := fun k' => if k' = k then some res.1 else r.stores k' }, res.2)

/-- `Registry::unbind<T>`: absent when no store exists, otherwise delegate. -/
def Registry.unbind {κ V : Type} [DecidableEq κ] (r : Registry κ V) (k : κ) (e : Nat) :
    Registry κ V × Option V :=
  match r.stores k with
  | none => (r, none)
  | some m =>
    let res := m.unbind e
    ({ r with stores := fun k' => if k' = k then some res.1 else r.stores k' }, res.2)

/-- `Registry::entities_with_component<T>`: `copy_if` over the values of
`entities_` keeping those the store has data for. -/
def Registry.entities_with_component {κ V : Type} (r : Registry κ V) (k : κ) : List Nat :=
  match r.stores k with
  | none => []
  | some m => r.entities.filter (fun e => m.has_data e)

/-- `Registry::with_components<Components>`: empty for the empty type
list, otherwise `copy_if` over the values of `entities_` keeping entities
that have every component of the list (`TypeListHelper::has_components`,
a fold of `has_component` with `&&`). -/
def Registry.with_components {κ V : Type} (r : Registry κ V) (ks : List κ) : List Nat :=
  if ks.isEmpty then []
  else r.entities.filter (fun e => ks.all (fun k => r.has_component k e))

/-- Loop body of `std::set_difference`, written with an explicit fuel
argument so that the definition is structurally recursive (each iteration
consumes at least one element of one range, so any fuel at least the sum
of the lengths is enough and the fuel never runs out). -/
def sdAux : Nat → List Nat → List Nat → List Nat
  | _, [], _ => []
  | 0, x :: xs, _ => x :: xs
  | fuel + 1, x :: xs, [] => x :: sdAux fuel xs []
  | fuel + 1, x :: xs, y :: ys =>
    if x < y then x :: sdAux fuel xs (y :: ys)
    else if y < x then sdAux fuel (x :: xs) ys
    else sdAux fuel xs ys

/-- `std::set_difference` on two sorted ranges, as used by `Registry::query`. -/
def set_difference (l1 l2 : List Nat) : List Nat :=
  sdAux (l1.length + l2.length) l1 l2

/-- The entity ids surviving `Registry::query`: `set_difference` of
`with_components<WithComponents>` and `with_components<WithoutComponents>`. -/
def Registry.query_ids {κ V : Type} (r : Registry κ V) (W B : List κ) : List Nat :=
  set_difference (r.with_components W) (r.with_components B)

/-- `Registry::query`: transform each surviving id with
`TypeListHelper::convert_and_unwrapp`, which builds the tuple
`make_tuple(get_component<List>(entity).value()...)` — one entry per
must-have component type, each `get_component` result unwrapped by
`optional::value()` (modelled as the `Option V` it unwraps). -/
def Registry.query {κ V : Type} (r : Registry κ V) (W B : List κ) : List (List (Option V)) :=
  (r.query_ids W B).map (fun e => W.map (fun k => r.get_component k e))

/-! ### Operations and reachable registry states -/

/-- The mutating public registry operations. -/
inductive Op (κ V : Type) where
  | make
  | kill (e : Nat)
  | bindc (k : κ) (e : Nat) (v : V)
  | unbindc (k : κ) (e : Nat)

/-- Apply one mutating operation. -/
def Registry.apply {κ V : Type} [DecidableEq κ] (r : Registry κ V) : Op κ V → Registry κ V
  | .make => r.make_entity.2
  | .kill e => r.kill_entity e
  | .bindc k e v => (r.bind k e v).1
  | .unbindc k e => (r.unbind k e).1

/-- Side conditions of an operation: ids are `uint32_t` values
(`e ≤ MAX_ID`), and id exhaustion is fatal (spec §4.C), so `make_entity`
only steps while the entity array is below `MAX_ID` entries. -/
def Op.valid {κ V : Type} (r : Registry κ V) : Op κ V → Prop
  | .make => r.entities.length < MAX_ID
  | .kill e => e ≤ MAX_ID
  | .bindc _ e _ => e ≤ MAX_ID
  | .unbindc _ e => e ≤ MAX_ID

/-- Registry states reachable from a fresh registry by the public
mutating operations. -/
inductive Reachable {κ V : Type} [DecidableEq κ] : Registry κ V → Prop where
  | init : Reachable Registry.empty
  | step {r : Registry κ V} {op : Op κ V} :
      Reachable r → op.valid r → Reachable (r.apply op)

/-! ### The sparse-set invariant -/

/-- The sparse-set invariant: `dense_` and `data_` are parallel, every
dense element is a representable id (`< MAX_ID`, since ids are `uint32_t`
and `MAX_ID` never enters `dense_`), `sparse_` maps every dense element
back to its position, and every non-null sparse cell points at a dense
element holding its own key. -/
def SSInv {V : Type} (s : SSet V) : Prop :=
  s.dense.length = s.data.length ∧
  (∀ i, i < s.dense.length → s.dense.getD i 0 < MAX_ID) ∧
  (∀ i, i < s.dense.length →
    s.dense.getD i 0 < s.sparse.length ∧ s.sparse.getD (s.dense.getD i 0) 0 = i) ∧
  (∀ k, k < s.sparse.length → s.sparse.getD k 0 ≠ MAX_ID →
    s.sparse.getD k 0 < s.dense.length ∧ s.dense.getD (s.sparse.getD k 0) 0 = k)

theorem SSInv_empty {V : Type} : SSInv (SSet.empty : SSet V) := by
  refine ⟨rfl, ?_, ?_, ?_⟩ <;> intro i hi <;> simp [SSet.empty] at hi

theorem has_data_iff {V : Type} (s : SSet V) (key : Nat) :
    s.has_data key = true ↔ (key < s.sparse.length ∧ s.sparse.getD key 0 ≠ MAX_ID) := by
  simp [SSet.has_data, SSet.out_of_bounds, is_null_key, Nat.not_le]

theorem has_data_false_iff {V : Type} (s : SSet V) (key : Nat) :
    s.has_data key = false ↔ (s.sparse.length ≤ key ∨ s.sparse.getD key 0 = MAX_ID) := by
  rw [← Bool.not_eq_true, has_data_iff]
  rw [not_and_or, Nat.not_lt, not_not]

/-- The dense array never repeats an id: positions are recovered through
`sparse_`, so the position map is injective. -/
theorem SSInv.nodup {V : Type} {s : SSet V} (h : SSInv s) : s.dense.Nodup := by
  obtain ⟨-, -, hsd, -⟩ := h
  rw [List.nodup_iff_injective_get]
  intro ⟨i, hi⟩ ⟨j, hj⟩ hij
  have h1 := (hsd i hi).2
  have h2 := (hsd j hj).2
  rw [getD_eq_get _ _ _ hi, hij, ← getD_eq_get _ _ _ hj] at h1
  rw [h2] at h1
  exact Fin.ext h1.symm

/-- At most `MAX_ID` distinct representable ids exist, so `dense_` can
hold at most `MAX_ID` entries. -/
theorem SSInv.dense_length_le {V : Type} {s : SSet V} (h : SSInv s) :
    s.dense.length ≤ MAX_ID := by
  have hnd := h.nodup
  obtain ⟨-, hlt, -, -⟩ := h
  have hsub : s.dense.toFinset ⊆ Finset.range MAX_ID := by
    intro x hx
    rcases mem_getD 0 (List.mem_toFinset.mp hx) with ⟨i, hi, hx'⟩
    exact Finset.mem_range.mpr (hx' ▸ hlt i hi)
  calc s.dense.length = s.dense.toFinset.card := (List.toFinset_card_of_nodup hnd).symm
    _ ≤ (Finset.range MAX_ID).card := Finset.card_le_card hsub
    _ = MAX_ID := Finset.card_range MAX_ID

/-! Facts about `rezise`. -/

theorem rezise_sparse_length {V : Type} (s : SSet V) (key : Nat) (h : s.sparse.length ≤ key) :
    (s.rezise key).sparse.length = key + 1 := by
  simp only [SSet.rezise, List.length_append, List.length_replicate]
  omega

theorem rezise_getD_lt {V : Type} (s : SSet V) (key i : Nat) (h : i < s.sparse.length) :
    (s.rezise key).sparse.getD i 0 = s.sparse.getD i 0 :=
  List.getD_append _ _ _ _ h

theorem rezise_getD_ge {V : Type} (s : SSet V) (key i : Nat) (h1 : s.sparse.length ≤ i)
    (h2 : i < (s.rezise key).sparse.length) : (s.rezise key).sparse.getD i 0 = MAX_ID := by
  simp only [SSet.rezise] at h2 ⊢
  rw [List.getD_append_right _ _ _ _ h1]
  rw [List.length_append, List.length_replicate] at h2
  exact getD_replicate _ _ _ _ (by omega)

theorem rezise_dense {V : Type} (s : SSet V) (key : Nat) : (s.rezise key).dense = s.dense := rfl

theorem rezise_data {V : Type} (s : SSet V) (key : Nat) : (s.rezise key).data = s.data := rfl

theorem SSInv_rezise {V : Type} {s : SSet V} (h : SSInv s) (key : Nat) :
    SSInv (s.rezise key) := by
  obtain ⟨hlen, hlt, hsd, hds⟩ := h
  refine ⟨hlen, hlt, ?_, ?_⟩
  · show ∀ i, i < s.dense.length → s.dense.getD i 0 < (s.rezise key).sparse.length ∧
      (s.rezise key).sparse.getD (s.dense.getD i 0) 0 = i
    intro i hi
    have h1 := (hsd i hi).1
    have hle : s.sparse.length ≤ (s.rezise key).sparse.length := by
      simp [SSet.rezise]
    exact ⟨by omega, by rw [rezise_getD_lt _ _ _ h1]; exact (hsd i hi).2⟩
  · show ∀ k, k < (s.rezise key).sparse.length → (s.rezise key).sparse.getD k 0 ≠ MAX_ID →
      (s.rezise key).sparse.getD k 0 < s.dense.length ∧
      s.dense.getD ((s.rezise key).sparse.getD k 0) 0 = k
    intro k hk hne
    by_cases hk' : k < s.sparse.length
    · rw [rezise_getD_lt _ _ _ hk'] at hne ⊢
      exact hds k hk' hne
    · rw [rezise_getD_ge _ _ _ (by omega) hk] at hne
      exact absurd rfl hne

/-- The growth step inside `bind`: the sparse array after the
`out_of_bounds` check, as one object. -/
def SSet.grown {V : Type} (s : SSet V) (key : Nat) : SSet V :=
  if s.out_of_bounds key then s.rezise key else s

theorem grown_dense {V : Type} (s : SSet V) (key : Nat) : (s.grown key).dense = s.dense := by
  unfold SSet.grown; split <;> rfl

theorem grown_data {V : Type} (s : SSet V) (key : Nat) : (s.grown key).data = s.data := by
  unfold SSet.grown; split <;> rfl

theorem grown_key_lt {V : Type} (s : SSet V) (key : Nat) :
    key < (s.grown key).sparse.length := by
  unfold SSet.grown
  by_cases hob : s.out_of_bounds key = true
  · have hle : s.sparse.length ≤ key := by
      simpa [SSet.out_of_bounds] using hob
    rw [if_pos hob, rezise_sparse_length s key hle]
    omega
  · have hlt : key < s.sparse.length := by
      simp only [SSet.out_of_bounds, decide_eq_true_eq] at hob
      omega
    rw [if_neg hob]
    exact hlt

theorem grown_getD_lt {V : Type} (s : SSet V) (key i : Nat) (h : i < s.sparse.length) :
    (s.grown key).sparse.getD i 0 = s.sparse.getD i 0 := by
  unfold SSet.grown
  split
  · exact rezise_getD_lt s key i h
  · rfl

theorem grown_getD_key_ge {V : Type} (s : SSet V) (key : Nat) (h : s.sparse.length ≤ key) :
    (s.grown key).sparse.getD key 0 = MAX_ID := by
  unfold SSet.grown
  by_cases hob : s.out_of_bounds key = true
  · rw [if_pos hob]
    exact rezise_getD_ge s key key h (by rw [rezise_sparse_length s key h]; omega)
  · simp only [SSet.out_of_bounds, decide_eq_true_eq] at hob
    omega

theorem SSInv_grown {V : Type} {s : SSet V} (h : SSInv s) (key : Nat) :
    SSInv (s.grown key) := by
  unfold SSet.grown
  split
  · exact SSInv_rezise h key
  · exact h

theorem sparse_length_le_grown {V : Type} (s : SSet V) (key : Nat) :
    s.sparse.length ≤ (s.grown key).sparse.length := by
  unfold SSet.grown
  split
  · simp [SSet.rezise]
  · exact Nat.le_refl _

/-- `bind` written through `grown` (the `let` in the source). -/
theorem bind_eq_grown {V : Type} (s : SSet V) (key : Nat) (v : V) :
    s.bind key v =
      if is_null_key key then (s, some .INVALID_KEY)
      else
        let s1 := s.grown key
        if !(s1.has_data key) then
          ({ sparse := s1.sparse.set key s1.dense.length,
             dense := s1.dense ++ [key],
             data := s1.data ++ [v] }, none)
        else
          ({ s1 with data := s1.data.set (s1.sparse.getD key 0) v }, none) := rfl

/-! Facts about `listSwap`. -/

theorem listSwap_def {α : Type} (l : List α) (i j : Nat) (hi : i < l.length) (hj : j < l.length) :
    listSwap l i j = (l.set i (l.get ⟨j, hj⟩)).set j (l.get ⟨i, hi⟩) := by
  unfold listSwap
  rw [List.get?_eq_get hi, List.get?_eq_get hj]

theorem length_listSwap {α : Type} (l : List α) (i j : Nat) :
    (listSwap l i j).length = l.length := by
  unfold listSwap
  rcases h1 : l.get? i with - | a <;> rcases h2 : l.get? j with - | b <;> simp

theorem getD_listSwap_left {α : Type} (l : List α) (i j : Nat) (d : α)
    (hi : i < l.length) (hj : j < l.length) :
    (listSwap l i j).getD i d = l.getD j d := by
  rw [listSwap_def l i j hi hj]
  by_cases hij : i = j
  · subst hij
    rw [getD_set_self _ _ _ _ (by simpa using hi), ← getD_eq_get _ _ d hi]
  · rw [getD_set_other _ _ _ _ _ (fun h => hij h.symm),
      getD_set_self _ _ _ _ hi, ← getD_eq_get _ _ d hj]

theorem getD_listSwap_right {α : Type} (l : List α) (i j : Nat) (d : α)
    (hi : i < l.length) (hj : j < l.length) :
    (listSwap l i j).getD j d = l.getD i d := by
  rw [listSwap_def l i j hi hj, getD_set_self _ _ _ _ (by simpa using hj),
    ← getD_eq_get _ _ d hi]

theorem getD_listSwap_other {α : Type} (l : List α) (i j x : Nat) (d : α)
    (hi : i < l.length) (hj : j < l.length) (hxi : x ≠ i) (hxj : x ≠ j) :
    (listSwap l i j).getD x d = l.getD x d := by
  rw [listSwap_def l i j hi hj, getD_set_other _ _ _ _ _ (fun h => hxj h.symm),
    getD_set_other _ _ _ _ _ (fun h => hxi h.symm)]

/-! Facts about `has_data` across operations. -/

theorem has_data_grown {V : Type} (s : SSet V) (key x : Nat) :
    (s.grown key).has_data x = s.has_data x := by
  by_cases hx : x < s.sparse.length
  · rcases hb : s.has_data x with - | -
    · rw [has_data_false_iff] at hb
      rw [has_data_false_iff]
      rcases hb with hb | hb
      · omega
      · right; rw [grown_getD_lt _ _ _ hx]; exact hb
    · rw [has_data_iff] at hb
      rw [has_data_iff]
      refine ⟨by have := sparse_length_le_grown s key; omega, ?_⟩
      rw [grown_getD_lt _ _ _ hx]
      exact hb.2
  · have hfalse : s.has_data x = false := by
      rw [has_data_false_iff]; left; omega
    rw [hfalse, has_data_false_iff]
    by_cases hx2 : x < (s.grown key).sparse.length
    · right
      by_cases hxk : x = key
      · rw [hxk]; exact grown_getD_key_ge s key (by omega)
      · unfold SSet.grown at hx2 ⊢
        split at hx2 <;> rename_i hsplit
        · rw [if_pos hsplit]
          exact rezise_getD_ge s key x (by omega) hx2
        · omega
    · left; omega

/-- In the fresh-insert branch of `bind` the dense array cannot already be
saturated: if it held `MAX_ID` distinct representable ids it would contain
the key, contradicting the null sparse cell. -/
theorem fresh_dense_lt_max {V : Type} {s : SSet V} (h : SSInv s) {key : Nat}
    (hk : key < MAX_ID) (hklt : key < s.sparse.length)
    (hcell : s.sparse.getD key 0 = MAX_ID) : s.dense.length < MAX_ID := by
  rcases Nat.lt_or_ge s.dense.length MAX_ID with hlt | hge
  · exact hlt
  exfalso
  have hL : s.dense.length = MAX_ID := Nat.le_antisymm h.dense_length_le hge
  have hnd := h.nodup
  obtain ⟨-, helems, hsd, -⟩ := h
  have hsub : s.dense.toFinset ⊆ Finset.range MAX_ID := by
    intro x hx
    rcases mem_getD 0 (List.mem_toFinset.mp hx) with ⟨i, hi, hx'⟩
    exact Finset.mem_range.mpr (hx' ▸ helems i hi)
  have hcard : (Finset.range MAX_ID).card ≤ s.dense.toFinset.card := by
    rw [Finset.card_range, List.toFinset_card_of_nodup hnd, hL]
  have heq : s.dense.toFinset = Finset.range MAX_ID :=
    Finset.eq_of_subset_of_card_le hsub hcard
  have hmem : key ∈ s.dense := by
    rw [← List.mem_toFinset, heq]
    exact Finset.mem_range.mpr hk
  rcases mem_getD 0 hmem with ⟨i, hi, hik⟩
  have := (hsd i hi).2
  rw [hik, hcell] at this
  omega

theorem SSInv_bind {V : Type} {s : SSet V} (h : SSInv s) {key : Nat} (hk : key < MAX_ID)
    (v : V) : SSInv (s.bind key v).1 := by
  have hnull : is_null_key key = false := by
    simp [is_null_key]; omega
  rw [bind_eq_grown]
  simp only [hnull, Bool.false_eq_true, if_false]
  have hg := SSInv_grown h key
  have hklt := grown_key_lt s key
  rcases hhas : (s.grown key).has_data key with - | -
  · -- fresh insert
    simp only [hhas, Bool.not_false, if_true]
    have hcell : (s.grown key).sparse.getD key 0 = MAX_ID := by
      rcases (has_data_false_iff _ _).mp hhas with hb | hb
      · omega
      · exact hb
    have hLmax : (s.grown key).dense.length < MAX_ID := fresh_dense_lt_max hg hk hklt hcell
    obtain ⟨hlen, helems, hsd, hds⟩ := hg
    set s1 := s.grown key with hs1
    set L := s1.dense.length with hL
    refine ⟨?_, ?_, ?_, ?_⟩
    · simp only [List.length_append, List.length_set, List.length_cons, List.length_nil]
      omega
    · intro i hi
      simp only [List.length_append, List.length_cons, List.length_nil] at hi
      rcases Nat.lt_or_ge i L with hiL | hiL
      · rw [List.getD_append _ _ _ _ hiL]
        exact helems i hiL
      · have hiL' : i = L := by omega
        rw [hiL', List.getD_append_right _ _ _ _ (Nat.le_refl L)]
        simpa using hk
    · intro i hi
      simp only [List.length_append, List.length_cons, List.length_nil] at hi
      rcases Nat.lt_or_ge i L with hiL | hiL
      · have hdi := hsd i hiL
        have hne : s1.dense.getD i 0 ≠ key := by
          intro hEq
          have := hdi.2
          rw [hEq, hcell] at this
          omega
        rw [List.getD_append _ _ _ _ hiL]
        constructor
        · simpa using hdi.1
        · rw [getD_set_other _ _ _ _ _ (fun hEq => hne hEq.symm)]
          exact hdi.2
      · have hiL' : i = L := by omega
        rw [hiL', List.getD_append_right _ _ _ _ (Nat.le_refl L)]
        simp only [Nat.sub_self, List.getD]
        constructor
        · simpa using hklt
        · show (s1.sparse.set key L).getD key 0 = L
          exact getD_set_self _ _ _ _ (by simpa using hklt)
    · intro k hkk hne
      simp only [List.length_set] at hkk
      by_cases hkey : k = key
      · rw [hkey, getD_set_self _ _ _ _ (by simpa using hklt)] at hne ⊢
        constructor
        · simp only [List.length_append, List.length_cons, List.length_nil]; omega
        · rw [List.getD_append_right _ _ _ _ (Nat.le_refl L)]
          simp [hkey]
      · rw [getD_set_other _ _ _ _ _ (fun hEq => hkey hEq.symm)] at hne ⊢
        have hdk := hds k hkk hne
        constructor
        · simp only [List.length_append, List.length_cons, List.length_nil]; omega
        · rw [List.getD_append _ _ _ _ hdk.1]
          exact hdk.2
  · -- update in place
    simp only [hhas, Bool.not_true, Bool.false_eq_true, if_false]
    obtain ⟨hlen, helems, hsd, hds⟩ := hg
    exact ⟨by simpa [List.length_set] using hlen, helems, hsd, hds⟩

/-- Effect of `bind` on `has_data`: the key becomes present, everything
else is untouched. -/
theorem has_data_bind {V : Type} {s : SSet V} (h : SSInv s) {key : Nat} (hk : key < MAX_ID)
    (v : V) (x : Nat) :
    (s.bind key v).1.has_data x = true ↔ (s.has_data x = true ∨ x = key) := by
  have hnull : is_null_key key = false := by
    simp [is_null_key]; omega
  rw [bind_eq_grown]
  simp only [hnull, Bool.false_eq_true, if_false]
  have hg := SSInv_grown h key
  have hklt := grown_key_lt s key
  rcases hhas : (s.grown key).has_data key with - | -
  · -- fresh insert
    simp only [hhas, Bool.not_false, if_true]
    have hcell : (s.grown key).sparse.getD key 0 = MAX_ID := by
      rcases (has_data_false_iff _ _).mp hhas with hb | hb
      · omega
      · exact hb
    have hLmax : (s.grown key).dense.length < MAX_ID := fresh_dense_lt_max hg hk hklt hcell
    set s1 := s.grown key with hs1
    set L := s1.dense.length with hL
    rw [← has_data_grown s key x]
    show (SSet.mk (s1.sparse.set key L) (s1.dense ++ [key]) (s1.data ++ [v])).has_data x = true ↔
      (s1.has_data x = true ∨ x = key)
    by_cases hxk : x = key
    · subst hxk
      rw [has_data_iff]
      simp only [List.length_set]
      constructor
      · intro _; right; trivial
      · intro _
        exact ⟨by simpa using hklt, by rw [getD_set_self _ _ _ _ (by simpa using hklt)]; omega⟩
    · rw [has_data_iff, has_data_iff]
      simp only [List.length_set]
      rw [getD_set_other _ _ _ _ _ (fun hEq => hxk hEq.symm)]
      constructor
      · intro hx; left; exact hx
      · intro hx
        rcases hx with hx | hx
        · exact hx
        · exact absurd hx hxk
  · -- update in place
    simp only [hhas, Bool.not_true, Bool.false_eq_true, if_false]
    rw [← has_data_grown s key x]
    show (s.grown key).has_data x = true ↔ ((s.grown key).has_data x = true ∨ x = key)
    constructor
    · intro hx; left; exact hx
    · intro hx
      rcases hx with hx | hx
      · exact hx
      · rw [hx]; exact hhas

/-- Anatomy of `unbind` in the present case: the resulting components,
with the swap unfolded into `set` operations. -/
theorem unbind_present {V : Type} {s : SSet V} {key : Nat} (h : SSInv s)
    (hhas : s.has_data key = true) :
    (s.unbind key).1.sparse =
      (s.sparse.set (s.dense.getD (s.dense.length - 1) 0) (s.sparse.getD key 0)).set key MAX_ID ∧
    (s.unbind key).1.dense =
      (s.dense.set (s.sparse.getD key 0) (s.dense.getD (s.dense.length - 1) 0)).dropLast ∧
    (s.unbind key).1.data =
      (s.data.set (s.sparse.getD key 0)
        (s.data.get ⟨s.data.length - 1, by
          have hkey_lt : key < s.sparse.length := ((has_data_iff s key).mp hhas).1
          have hpne := ((has_data_iff s key).mp hhas).2
          have hp := (h.2.2.2 key hkey_lt hpne).1
          have hl := h.1
          omega⟩)).dropLast ∧
    (s.unbind key).2 =
      some (s.data.get ⟨s.sparse.getD key 0, by
        have hkey_lt : key < s.sparse.length := ((has_data_iff s key).mp hhas).1
        have hpne := ((has_data_iff s key).mp hhas).2
        have hp := (h.2.2.2 key hkey_lt hpne).1
        have hl := h.1
        omega⟩) := by
  have hkey_lt : key < s.sparse.length := ((has_data_iff s key).mp hhas).1
  have hpne := ((has_data_iff s key).mp hhas).2
  obtain ⟨hlen, helems, hsd, hds⟩ := h
  have hpL := hds key hkey_lt hpne
  set p := s.sparse.getD key 0 with hpdef
  have hp : p < s.dense.length := hpL.1
  have hpd : p < s.data.length := by omega
  have hlast : s.dense.length - 1 < s.dense.length := by omega
  have hlastd : s.data.length - 1 < s.data.length := by omega
  simp only [SSet.unbind, hhas, if_true]
  refine ⟨trivial, ?_, ?_, ?_⟩
  · rw [listSwap_def _ _ _ hp hlast, ← getD_eq_get _ _ 0 hlast]
    exact dropLast_set_ge _ _ _ (by rw [List.length_set])
  · rw [listSwap_def _ _ _ hpd hlastd]
    exact dropLast_set_ge _ _ _ (by rw [List.length_set])
  · rw [listSwap_def _ _ _ hpd hlastd]
    exact getLast?_set_eq_last _ _ _ (by rw [List.length_set]) (by rw [List.length_set]; omega)

theorem SSInv_unbind {V : Type} {s : SSet V} (h : SSInv s) (key : Nat) :
    SSInv (s.unbind key).1 := by
  rcases hhas : s.has_data key with - | -
  · simpa only [SSet.unbind, hhas, Bool.false_eq_true, if_false] using h
  obtain ⟨hsp, hdn, hdt, -⟩ := unbind_present h hhas
  have hiff := (has_data_iff s key).mp hhas
  have hkey_lt : key < s.sparse.length := hiff.1
  have hpne := hiff.2
  have hnd := h.nodup
  have hLmax := h.dense_length_le
  obtain ⟨hlen, helems, hsd, hds⟩ := h
  have hpL := hds key hkey_lt hpne
  set p := s.sparse.getD key 0 with hpdef
  set L := s.dense.length with hLdef
  have hp : p < L := hpL.1
  have hdpk : s.dense.getD p 0 = key := hpL.2
  set b := s.dense.getD (L - 1) 0 with hbdef
  have hbfacts := hsd (L - 1) (by omega)
  have hbsp : b < s.sparse.length := hbfacts.1
  have hsb : s.sparse.getD b 0 = L - 1 := hbfacts.2
  have hbne : p < L - 1 → b ≠ key := by
    intro hplt hEq
    rw [hEq] at hsb
    omega
  have hsp_len : (s.unbind key).1.sparse.length = s.sparse.length := by
    rw [hsp, List.length_set, List.length_set]
  have hdn_len : (s.unbind key).1.dense.length = L - 1 := by
    rw [hdn, List.length_dropLast, List.length_set]
  have hdt_len : (s.unbind key).1.data.length = s.data.length - 1 := by
    rw [hdt, List.length_dropLast, List.length_set]
  have hdn_getD : ∀ i, i < L - 1 →
      (s.unbind key).1.dense.getD i 0 = if i = p then b else s.dense.getD i 0 := by
    intro i hi
    rw [hdn, getD_dropLast _ _ _ (by rw [List.length_set]; omega)]
    by_cases hip : i = p
    · rw [hip, if_pos rfl, getD_set_self _ _ _ _ (by omega)]
    · rw [if_neg hip, getD_set_other _ _ _ _ _ (fun hEq => hip hEq.symm)]
  have hsp_getD : ∀ k, k ≠ key →
      (s.unbind key).1.sparse.getD k 0 = if k = b then p else s.sparse.getD k 0 := by
    intro k hkne
    rw [hsp, getD_set_other _ _ _ _ _ (fun hEq => hkne hEq.symm)]
    by_cases hkb : k = b
    · rw [hkb, if_pos rfl, getD_set_self _ _ _ _ hbsp]
    · rw [if_neg hkb, getD_set_other _ _ _ _ _ (fun hEq => hkb hEq.symm)]
  have hsp_key : (s.unbind key).1.sparse.getD key 0 = MAX_ID := by
    rw [hsp, getD_set_self _ _ _ _ (by rw [List.length_set]; omega)]
  refine ⟨?_, ?_, ?_, ?_⟩
  · rw [hdn_len, hdt_len]; omega
  · intro i hi
    rw [hdn_len] at hi
    rw [hdn_getD i hi]
    by_cases hip : i = p
    · rw [if_pos hip]; exact helems (L - 1) (by omega)
    · rw [if_neg hip]; exact helems i (by omega)
  · intro i hi
    rw [hdn_len] at hi
    rw [hdn_getD i hi]
    by_cases hip : i = p
    · rw [if_pos hip]
      have hbnk : b ≠ key := hbne (by omega)
      rw [hsp_getD b hbnk, if_pos rfl, hsp_len]
      exact ⟨hbsp, hip.symm⟩
    · rw [if_neg hip]
      have hdine : s.dense.getD i 0 ≠ key := by
        intro hEq
        have h2 := (hsd i (by omega)).2
        rw [hEq] at h2
        exact hip h2.symm
      have hdinb : s.dense.getD i 0 ≠ b := by
        intro hEq
        have h2 := (hsd i (by omega)).2
        rw [hEq, hsb] at h2
        omega
      rw [hsp_getD _ hdine, if_neg hdinb, hsp_len]
      exact ⟨(hsd i (by omega)).1, (hsd i (by omega)).2⟩
  · intro k hk hne
    rw [hsp_len] at hk
    by_cases hkk : k = key
    · rw [hkk, hsp_key] at hne
      exact absurd rfl hne
    by_cases hkb : k = b
    · rw [hsp_getD k hkk, if_pos hkb] at hne ⊢
      have hplt : p < L - 1 := by
        rcases Nat.lt_or_ge p (L - 1) with hplt | hge
        · exact hplt
        · exfalso
          have hpeq : p = L - 1 := by omega
          rw [← hpeq] at hbdef
          rw [hbdef, hdpk] at hkb
          exact hkk hkb
      rw [hdn_len, hdn_getD p hplt, if_pos rfl]
      exact ⟨hplt, hkb.symm⟩
    · rw [hsp_getD k hkk, if_neg hkb] at hne ⊢
      have hdk := hds k hk hne
      have hidx_ne_last : s.sparse.getD k 0 ≠ L - 1 := by
        intro hEq
        rw [hEq] at hdk
        exact hkb hdk.2.symm
      have hidx_ne_p : s.sparse.getD k 0 ≠ p := by
        intro hEq
        rw [hEq, hdpk] at hdk
        exact hkk hdk.2.symm
      have hidx_lt : s.sparse.getD k 0 < L - 1 := by
        have := hdk.1
        omega
      rw [hdn_len, hdn_getD _ hidx_lt, if_neg hidx_ne_p]
      exact ⟨hidx_lt, hdk.2⟩

/-- After `unbind key` the key never has data, in any state. -/
theorem has_data_unbind_self {V : Type} (s : SSet V) (key : Nat) :
    (s.unbind key).1.has_data key = false := by
  rcases hhas : s.has_data key with - | -
  · simpa only [SSet.unbind, hhas, Bool.false_eq_true, if_false] using hhas
  · have hkey_lt : key < s.sparse.length := ((has_data_iff s key).mp hhas).1
    simp only [SSet.unbind, hhas, if_true]
    rw [has_data_false_iff]
    right
    show ((s.sparse.set (s.dense.getD (s.dense.length - 1) 0) (s.sparse.getD key 0)).set
      key MAX_ID).getD key 0 = MAX_ID
    exact getD_set_self _ _ _ _ (by rw [List.length_set]; omega)

/-- Effect of `unbind` on `has_data`: the key loses its data, everything
else is untouched. -/
theorem has_data_unbind {V : Type} {s : SSet V} (h : SSInv s) (key x : Nat) :
    (s.unbind key).1.has_data x = true ↔ (s.has_data x = true ∧ x ≠ key) := by
  by_cases hxk : x = key
  · subst hxk
    rw [has_data_unbind_self]
    simp
  rcases hhas : s.has_data key with - | -
  · simp only [SSet.unbind, hhas, Bool.false_eq_true, if_false]
    exact ⟨fun hx => ⟨hx, hxk⟩, fun hx => hx.1⟩
  obtain ⟨hsp, -, -, -⟩ := unbind_present h hhas
  have hiff := (has_data_iff s key).mp hhas
  have hkey_lt : key < s.sparse.length := hiff.1
  have hpne := hiff.2
  have hLmax := h.dense_length_le
  obtain ⟨hlen, helems, hsd, hds⟩ := h
  have hpL := hds key hkey_lt hpne
  set p := s.sparse.getD key 0 with hpdef
  set L := s.dense.length with hLdef
  set b := s.dense.getD (L - 1) 0 with hbdef
  have hbfacts := hsd (L - 1) (by omega)
  have hbsp : b < s.sparse.length := hbfacts.1
  have hsb : s.sparse.getD b 0 = L - 1 := hbfacts.2
  have hsp_len : (s.unbind key).1.sparse.length = s.sparse.length := by
    rw [hsp, List.length_set, List.length_set]
  have hcell : (s.unbind key).1.sparse.getD x 0 =
      if x = b then p else s.sparse.getD x 0 := by
    rw [hsp, getD_set_other _ _ _ _ _ (fun hEq => hxk hEq.symm)]
    by_cases hxb : x = b
    · rw [hxb, if_pos rfl, getD_set_self _ _ _ _ hbsp]
    · rw [if_neg hxb, getD_set_other _ _ _ _ _ (fun hEq => hxb hEq.symm)]
  rw [has_data_iff, has_data_iff, hsp_len, hcell]
  by_cases hxb : x = b
  · rw [if_pos hxb, hxb]
    have hbk : b ≠ key := by rw [← hxb]; exact hxk
    constructor
    · intro hx
      refine ⟨⟨hbsp, ?_⟩, hbk⟩
      rw [hsb]; omega
    · intro hx
      refine ⟨hbsp, ?_⟩
      omega
  · rw [if_neg hxb]
    exact ⟨fun hx => ⟨hx, hxk⟩, fun hx => hx.1⟩

/-- When the key has data, `get_data` returns a present value. -/
theorem get_data_isSome {V : Type} {s : SSet V} (h : SSInv s) (key : Nat)
    (hhas : s.has_data key = true) : (s.get_data key).isSome = true := by
  have hiff := (has_data_iff s key).mp hhas
  have hp := (h.2.2.2 key hiff.1 hiff.2).1
  have hlen := h.1
  simp only [SSet.get_data, hhas, if_true]
  rw [List.get?_eq_get (by omega)]
  rfl

/-! ### Sparse-set operation traces (claim C3) -/

/-- One mutating sparse-set operation. -/
inductive SSOp (V : Type) where
  | bindv (key : Nat) (v : V)
  | unbindv (key : Nat)

/-- The key of an operation. -/
def SSOp.key {V : Type} : SSOp V → Nat
  | .bindv k _ => k
  | .unbindv k => k

/-- Apply one sparse-set operation. -/
def SSet.applyOp {V : Type} (s : SSet V) : SSOp V → SSet V
  | .bindv k v => (s.bind k v).1
  | .unbindv k => (s.unbind k).1

/-- Run a sequence of sparse-set operations from a state. -/
def SSet.runOps {V : Type} (s : SSet V) (ops : List (SSOp V)) : SSet V :=
  ops.foldl SSet.applyOp s

theorem SSInv_applyOp {V : Type} {s : SSet V} (h : SSInv s) {op : SSOp V}
    (hk : op.key < MAX_ID) : SSInv (s.applyOp op) := by
  cases op with
  | bindv k v => exact SSInv_bind h hk v
  | unbindv k => exact SSInv_unbind h k

theorem SSInv_runOps {V : Type} {s : SSet V} (h : SSInv s) {ops : List (SSOp V)}
    (hk : ∀ op ∈ ops, op.key < MAX_ID) : SSInv (s.runOps ops) := by
  induction ops generalizing s with
  | nil => exact h
  | cons op rest ih =>
    exact ih (SSInv_applyOp h (hk op (List.mem_cons_self op rest)))
      (fun o ho => hk o (List.mem_cons_of_mem op ho))

/-- The invariant bundle claimed for sparse-set operation sequences:
the sparse/dense bijection in both directions, parallel `dense`/`data`
lengths, and no duplicate id in `dense`. -/
def ClaimedSSetInvariant {V : Type} (s : SSet V) : Prop :=
  (∀ i, i < s.dense.length → s.sparse.getD (s.dense.getD i 0) 0 = i) ∧
  (∀ k, k < s.sparse.length → s.sparse.getD k 0 ≠ MAX_ID →
    s.dense.getD (s.sparse.getD k 0) 0 = k) ∧
  s.dense.length = s.data.length ∧
  s.dense.Nodup

/-- C3 (confirmed): for every finite sequence of `bind(e, v)` / `unbind(e)`
operations on a single `SparseSet` starting from empty, with every key a
representable id other than `NULL_ID` (ids are `uint32_t`, so `e ≠ NULL_ID`
means `e < MAX_ID`), the resulting state satisfies: `sparse[dense[i]] == i`
for every `i < len(dense)`, `dense[sparse[k]] == k` for every in-range `k`
with `sparse[k] != NULL_ID`, `len(dense) == len(data)`, and no id occurs
twice in `dense`.  Every prefix of such a sequence is itself such a
sequence, so the invariant holds after each operation. -/
theorem C3_sparse_set_invariants {V : Type} (ops : List (SSOp V))
    (hk : ∀ op ∈ ops, op.key < MAX_ID) :
    ClaimedSSetInvariant (SSet.runOps SSet.empty ops) := by
  have h := SSInv_runOps SSInv_empty hk
  exact ⟨fun i hi => (h.2.2.1 i hi).2, fun k hkk hne => (h.2.2.2 k hkk hne).2, h.1, h.nodup⟩

theorem C3_sparse_set_invariants_witness :
    (∀ op ∈ ([SSOp.bindv 0 5, SSOp.bindv 1 7, SSOp.unbindv 0] : List (SSOp Nat)),
      op.key < MAX_ID) ∧
    ClaimedSSetInvariant (SSet.runOps SSet.empty
      ([SSOp.bindv 0 5, SSOp.bindv 1 7, SSOp.unbindv 0] : List (SSOp Nat))) :=
  ⟨by decide, C3_sparse_set_invariants _ (by decide)⟩

/-- C4 (code bug): `bind(2, v)` on an empty `SparseSet` grows `sparse_` to
length `3` and the newly added cells do hold `NULL_ID`, but the
`std::fill(sparse_.begin() + from, sparse_.end() + to, MAX_ID)` in
`rezise` runs to `end + to` with `to = key - sparse_.size() = 2`, i.e.
over indices `[0, 5)`, writing the two positions `3` and `4` outside the
grown 3-cell array (undefined behaviour in C++).  The claim's "no write
touches any position outside the grown array" is what the spec demands
and the code misses. -/
theorem C4_rezise_fill_overshoots :
    (SSet.empty : SSet Nat).out_of_bounds 2 = true ∧
    ((SSet.empty : SSet Nat).rezise 2).sparse = [MAX_ID, MAX_ID, MAX_ID] ∧
    rezise_fill_from 0 = 0 ∧
    rezise_fill_until 0 2 = 5 ∧
    ((SSet.empty : SSet Nat).rezise 2).sparse.length < rezise_fill_until 0 2 := by
  refine ⟨rfl, ?_, rfl, rfl, by decide⟩
  show ([] : List Nat) ++ List.replicate (2 + 1 - 0) MAX_ID = [MAX_ID, MAX_ID, MAX_ID]
  rfl

/-- C8 (confirmed): on every state satisfying the sparse-set invariants
and every present key, the implemented `unbind` — which updates
`sparse_[dense_.back()]` and nulls `sparse_[key]` before performing the
swaps — produces exactly the state and return value of the spec's
reference algorithm (swap, then update the moved element's sparse cell,
then null the key's cell, then pop), in both the `i == last` and
`i != last` cases. -/
theorem C8_unbind_matches_spec {V : Type} {s : SSet V} (h : SSInv s) (key : Nat)
    (hhas : s.has_data key = true) : s.unbind key = s.unbind_spec key := by
  have hiff := (has_data_iff s key).mp hhas
  have hkey_lt : key < s.sparse.length := hiff.1
  have hpne := hiff.2
  obtain ⟨hlen, helems, hsd, hds⟩ := h
  have hpL := hds key hkey_lt hpne
  have hp : s.sparse.getD key 0 < s.dense.length := hpL.1
  have hlast : s.dense.length - 1 < s.dense.length := by omega
  have hswap : (listSwap s.dense (s.sparse.getD key 0) (s.dense.length - 1)).getD
      (s.sparse.getD key 0) 0 = s.dense.getD (s.dense.length - 1) 0 :=
    getD_listSwap_left _ _ _ _ hp hlast
  simp only [SSet.unbind, SSet.unbind_spec, hhas, if_true]
  rw [hswap]

theorem C8_unbind_matches_spec_witness :
    SSInv (SSet.mk [0, 1] [0, 1] [10, 20] : SSet Nat) ∧
    (SSet.mk [0, 1] [0, 1] [10, 20] : SSet Nat).has_data 0 = true ∧
    (SSet.mk [0, 1] [0, 1] [10, 20] : SSet Nat).unbind 0 =
      (SSet.mk [0, 1] [0, 1] [10, 20] : SSet Nat).unbind_spec 0 :=
  ⟨by unfold SSInv; decide, by decide,
    C8_unbind_matches_spec (by unfold SSInv; decide) 0 (by decide)⟩

/-! ### The registry invariant: free-list chain, store sanity -/

/-- The implicit free list: starting from a head id, each dead slot stores
the id of the next dead slot, terminated by `MAX_ID`. -/
inductive Chain : List Nat → Nat → List Nat → Prop where
  | nil (ent : List Nat) : Chain ent MAX_ID []
  | cons {ent : List Nat} {h : Nat} {rest : List Nat} :
      h < ent.length → ent.getD h 0 ≠ h → Chain ent (ent.getD h 0) rest →
      Chain ent h (h :: rest)

theorem Chain.mem_dead {ent : List Nat} {h : Nat} {ds : List Nat} (hc : Chain ent h ds) :
    ∀ j ∈ ds, j < ent.length ∧ ent.getD j 0 ≠ j := by
  induction hc with
  | nil => intro j hj; simp at hj
  | cons hlt hne _ ih =>
    intro j hj
    rcases List.mem_cons.mp hj with hj | hj
    · exact hj ▸ ⟨hlt, hne⟩
    · exact ih j hj

/-- The start of a chain is the terminator or a dead in-range slot. -/
theorem Chain.start_dead {ent : List Nat} {h : Nat} {ds : List Nat} (hc : Chain ent h ds) :
    h = MAX_ID ∨ (h < ent.length ∧ ent.getD h 0 ≠ h) := by
  cases hc with
  | nil => left; rfl
  | cons hlt hne _ => right; exact ⟨hlt, hne⟩

/-- Every link stored in a chain member is `MAX_ID` or a dead in-range slot. -/
theorem Chain.mem_link {ent : List Nat} {h : Nat} {ds : List Nat} (hc : Chain ent h ds) :
    ∀ j ∈ ds, ent.getD j 0 = MAX_ID ∨
      (ent.getD j 0 < ent.length ∧ ent.getD (ent.getD j 0) 0 ≠ ent.getD j 0) := by
  induction hc with
  | nil => intro j hj; simp at hj
  | cons hlt hne hrest ih =>
    intro j hj
    rcases List.mem_cons.mp hj with hj | hj
    · subst hj
      exact hrest.start_dead
    · exact ih j hj

/-- A chain is unaffected by writing a cell that is not one of its members. -/
theorem Chain.set_outside {ent : List Nat} {h : Nat} {ds : List Nat} (hc : Chain ent h ds)
    {c x : Nat} (hout : ∀ j ∈ ds, j ≠ c) : Chain (ent.set c x) h ds := by
  induction hc with
  | nil => exact Chain.nil _
  | cons hlt hne hrest ih =>
    rename_i hd rest
    have hdc : hd ≠ c := hout hd (List.mem_cons_self hd rest)
    have hget : (ent.set c x).getD hd 0 = ent.getD hd 0 :=
      getD_set_other _ _ _ _ _ (fun hEq => hdc hEq.symm)
    refine Chain.cons (by simpa [List.length_set] using hlt) (by rw [hget]; exact hne) ?_
    rw [hget]
    exact ih (fun j hj => hout j (List.mem_cons_of_mem hd hj))

/-- A chain is unaffected by appending a new slot. -/
theorem Chain.append {ent : List Nat} {h : Nat} {ds : List Nat} (hc : Chain ent h ds)
    (a : Nat) : Chain (ent ++ [a]) h ds := by
  induction hc with
  | nil => exact Chain.nil _
  | cons hlt hne hrest ih =>
    have hget := List.getD_append _ [a] 0 _ hlt
    refine Chain.cons (by rw [List.length_append]; omega) (by rw [hget]; exact hne) ?_
    rw [hget]
    exact ih

/-- A chain starting at `MAX_ID` is empty when the array has at most
`MAX_ID` slots. -/
theorem Chain.eq_nil {ent : List Nat} {ds : List Nat} (hc : Chain ent MAX_ID ds)
    (hlen : ent.length ≤ MAX_ID) : ds = [] := by
  cases hc with
  | nil => rfl
  | cons hlt _ _ => omega

/-- Inversion of a chain with a non-terminator head. -/
theorem Chain.cons_of_ne_max {ent : List Nat} {h : Nat} {ds : List Nat}
    (hc : Chain ent h ds) (hne : h ≠ MAX_ID) :
    h < ent.length ∧ ent.getD h 0 ≠ h ∧ Chain ent (ent.getD h 0) ds.tail ∧
      ds = h :: ds.tail := by
  cases hc with
  | nil => exact absurd rfl hne
  | cons hlt hdne hrest => exact ⟨hlt, hdne, hrest, rfl⟩

/-- The registry invariant maintained by the public operations. -/
structure RegInv {κ V : Type} (r : Registry κ V) : Prop where
  lenLe : r.entities.length ≤ MAX_ID
  chain : ∃ ds, Chain r.entities r.current ds ∧ ds.Nodup ∧
    (∀ i, i < r.entities.length → r.entities.getD i 0 ≠ i → i ∈ ds)
  stores_inv : ∀ k m, r.stores k = some m → SSInv m
  comp_alive : ∀ k m e, r.stores k = some m → m.has_data e = true → r.is_alive e = true

theorem is_alive_iff {κ V : Type} (r : Registry κ V) (e : Nat) :
    r.is_alive e = true ↔ (e < r.entities.length ∧ r.entities.getD e 0 = e) := by
  simp [Registry.is_alive]

/-- A dead-slot value is never a live id (it is `MAX_ID` or a dead slot). -/
theorem RegInv.link_not_alive {κ V : Type} {r : Registry κ V} (h : RegInv r)
    {i : Nat} (hi : i < r.entities.length) (hne : r.entities.getD i 0 ≠ i) :
    r.is_alive (r.entities.getD i 0) = false := by
  rcases h.chain with ⟨ds, hc, -, hcomplete⟩
  have hmem := hcomplete i hi hne
  rcases hc.mem_link i hmem with hl | hl
  · rw [hl]
    rw [← Bool.not_eq_true, is_alive_iff]
    intro hcon
    have := h.lenLe
    omega
  · rw [← Bool.not_eq_true, is_alive_iff]
    intro hcon
    exact hl.2 hcon.2

/-- The free-list head is `MAX_ID` or a dead in-range slot. -/
theorem RegInv.current_dead {κ V : Type} {r : Registry κ V} (h : RegInv r) :
    r.current = MAX_ID ∨
      (r.current < r.entities.length ∧ r.entities.getD r.current 0 ≠ r.current) := by
  rcases h.chain with ⟨ds, hc, -, -⟩
  exact hc.start_dead

theorem RegInv_empty {κ V : Type} : RegInv (Registry.empty : Registry κ V) := by
  refine ⟨by simp [Registry.empty, MAX_ID], ⟨[], Chain.nil _, List.nodup_nil, ?_⟩, ?_, ?_⟩
  · intro i hi
    simp [Registry.empty] at hi
  · intro k m hm
    simp [Registry.empty] at hm
  · intro k m e hm
    simp [Registry.empty] at hm

/-! Preservation of `RegInv` by each public operation. -/

theorem RegInv_make {κ V : Type} {r : Registry κ V} (h : RegInv r)
    (hval : r.entities.length < MAX_ID) : RegInv r.make_entity.2 := by
  unfold Registry.make_entity
  by_cases hcur : r.current = MAX_ID
  · -- brand new entity
    rw [if_pos hcur]
    rcases h.chain with ⟨ds, hc, -, hcomplete⟩
    have hds : ds = [] := (hcur ▸ hc).eq_nil h.lenLe
    subst hds
    refine ⟨?_, ⟨[], ?_, List.nodup_nil, ?_⟩, h.stores_inv, ?_⟩
    · show (r.entities ++ [r.entities.length]).length ≤ MAX_ID
      rw [List.length_append]
      simp only [List.length_cons, List.length_nil]
      omega
    · show Chain (r.entities ++ [r.entities.length]) r.current []
      rw [hcur]
      exact Chain.nil _
    · intro i hi hne
      simp only [Registry.make_new_entity] at hi hne
      rw [List.length_append] at hi
      simp only [List.length_cons, List.length_nil] at hi
      rcases Nat.lt_or_ge i r.entities.length with hilt | hige
      · rw [List.getD_append _ _ _ _ hilt] at hne
        exact hcomplete i hilt hne
      · have hieq : i = r.entities.length := by omega
        rw [hieq, List.getD_append_right _ _ _ _ (Nat.le_refl _)] at hne
        simp at hne
    · intro k m e hm hhd
      have halive := h.comp_alive k m e hm hhd
      rw [is_alive_iff] at halive ⊢
      show e < (r.entities ++ [r.entities.length]).length ∧
        (r.entities ++ [r.entities.length]).getD e 0 = e
      rw [List.length_append, List.getD_append _ _ _ _ halive.1]
      simp only [List.length_cons, List.length_nil]
      exact ⟨by omega, halive.2⟩
  · -- recycle
    rw [if_neg hcur]
    rcases h.chain with ⟨ds, hc, hnd, hcomplete⟩
    obtain ⟨hclt, hcne, hrest, hdseq⟩ := hc.cons_of_ne_max hcur
    rw [hdseq, List.nodup_cons] at hnd
    refine ⟨?_, ⟨ds.tail, ?_, hnd.2, ?_⟩, h.stores_inv, ?_⟩
    · show (r.entities.set r.current r.current).length ≤ MAX_ID
      rw [List.length_set]
      exact h.lenLe
    · show Chain (r.entities.set r.current r.current) (r.entities.getD r.current 0) ds.tail
      exact hrest.set_outside (fun j hj hEq => hnd.1 (hEq ▸ hj))
    · intro i hi hne
      show i ∈ ds.tail
      simp only [Registry.recycle_entity] at hi hne
      rw [List.length_set] at hi
      have hic : i ≠ r.current := by
        intro hEq
        rw [hEq, getD_set_self _ _ _ _ hclt] at hne
        exact hne rfl
      rw [getD_set_other _ _ _ _ _ (fun hEq => hic hEq.symm)] at hne
      have := hcomplete i hi hne
      rw [hdseq, List.mem_cons] at this
      rcases this with hEq | hmem
      · exact absurd hEq hic
      · exact hmem
    · intro k m e hm hhd
      have halive := h.comp_alive k m e hm hhd
      rw [is_alive_iff] at halive ⊢
      show e < (r.entities.set r.current r.current).length ∧
        (r.entities.set r.current r.current).getD e 0 = e
      have hec : e ≠ r.current := by
        intro hEq
        rw [hEq] at halive
        exact hcne halive.2
      rw [List.length_set, getD_set_other _ _ _ _ _ (fun hEq => hec hEq.symm)]
      exact halive

theorem RegInv_kill {κ V : Type} {r : Registry κ V} (h : RegInv r) (e : Nat) :
    RegInv (r.kill_entity e) := by
  unfold Registry.kill_entity
  rcases halive : r.is_alive e with - | -
  · simp only [Bool.false_eq_true, if_false]
    exact h
  rw [if_pos rfl]
  rw [is_alive_iff] at halive
  rcases h.chain with ⟨ds, hc, hnd, hcomplete⟩
  have hmem_ne : ∀ j ∈ ds, j ≠ e := by
    intro j hj hEq
    have := hc.mem_dead j hj
    rw [hEq] at this
    exact this.2 halive.2
  refine ⟨?_, ⟨e :: ds, ?_, ?_, ?_⟩, ?_, ?_⟩
  · show (r.entities.set e r.current).length ≤ MAX_ID
    rw [List.length_set]
    exact h.lenLe
  · show Chain (r.entities.set e r.current) e (e :: ds)
    have hget : (r.entities.set e r.current).getD e 0 = r.current :=
      getD_set_self _ _ _ _ halive.1
    refine Chain.cons (by rw [List.length_set]; exact halive.1) ?_ ?_
    · rw [hget]
      intro hEq
      rcases h.current_dead with hcd | hcd
      · rw [hEq] at hcd
        have := h.lenLe
        omega
      · rw [hEq] at hcd
        exact hcd.2 halive.2
    · rw [hget]
      exact hc.set_outside hmem_ne
  · rw [List.nodup_cons]
    exact ⟨fun hmem => (hmem_ne e hmem) rfl, hnd⟩
  · intro i hi hne
    show i ∈ e :: ds
    simp only [Registry.delete_all_components, Registry.mark_as_death] at hi hne
    rw [List.length_set] at hi
    rw [List.mem_cons]
    by_cases hie : i = e
    · left; exact hie
    · right
      rw [getD_set_other _ _ _ _ _ (fun hEq => hie hEq.symm)] at hne
      exact hcomplete i hi hne
  · intro k m hm
    simp only [Registry.delete_all_components, Registry.mark_as_death] at hm
    rcases hs : r.stores k with - | m0
    · rw [hs] at hm
      simp at hm
    · rw [hs] at hm
      simp only [Option.map] at hm
      rw [← Option.some_inj.mp hm]
      simp only [SSet.delete_component]
      exact SSInv_unbind (h.stores_inv k m0 hs) e
  · intro k m x hm hhd
    simp only [Registry.delete_all_components, Registry.mark_as_death] at hm
    rcases hs : r.stores k with - | m0
    · rw [hs] at hm
      simp at hm
    · rw [hs] at hm
      simp only [Option.map] at hm
      rw [← Option.some_inj.mp hm] at hhd
      simp only [SSet.delete_component] at hhd
      have hun := (has_data_unbind (h.stores_inv k m0 hs) e x).mp hhd
      have halive0 := h.comp_alive k m0 x hs hun.1
      rw [is_alive_iff] at halive0 ⊢
      show x < (r.entities.set e r.current).length ∧
        (r.entities.set e r.current).getD x 0 = x
      rw [List.length_set, getD_set_other _ _ _ _ _ (fun hEq => hun.2 hEq.symm)]
      exact halive0

/-- The empty sparse set has no data. -/
theorem has_data_empty {V : Type} (x : Nat) : (SSet.empty : SSet V).has_data x = false := by
  rw [has_data_false_iff]
  left
  simp [SSet.empty]

/-- A live entity id is strictly below `MAX_ID` in an invariant state. -/
theorem RegInv.alive_lt_max {κ V : Type} {r : Registry κ V} (h : RegInv r) {e : Nat}
    (halive : r.is_alive e = true) : e < MAX_ID := by
  rw [is_alive_iff] at halive
  have := h.lenLe
  omega

theorem RegInv_bind {κ V : Type} [DecidableEq κ] {r : Registry κ V} (h : RegInv r)
    (k : κ) (e : Nat) (v : V) : RegInv (r.bind k e v).1 := by
  unfold Registry.bind
  rcases halive : r.is_alive e with - | -
  · simp only [Bool.not_false, if_true]
    exact h
  simp only [Bool.not_true, Bool.false_eq_true, if_false]
  have hemax : e < MAX_ID := h.alive_lt_max halive
  have hm_inv : SSInv ((r.stores k).getD SSet.empty) := by
    rcases hs : r.stores k with - | m0
    · exact SSInv_empty
    · exact h.stores_inv k m0 hs
  refine ⟨h.lenLe, h.chain, ?_, ?_⟩
  · intro k' m hm
    simp only at hm
    by_cases hk' : k' = k
    · rw [if_pos hk'] at hm
      rw [← Option.some_inj.mp hm]
      exact SSInv_bind hm_inv hemax v
    · rw [if_neg hk'] at hm
      exact h.stores_inv k' m hm
  · intro k' m x hm hhd
    simp only at hm
    by_cases hk' : k' = k
    · rw [if_pos hk'] at hm
      rw [← Option.some_inj.mp hm] at hhd
      have := (has_data_bind hm_inv hemax v x).mp hhd
      rcases this with hold | hxe
      · rcases hs : r.stores k with - | m0
        · rw [hs] at hold
          have hhold : (SSet.empty : SSet V).has_data x = true := hold
          rw [has_data_empty x] at hhold
          exact absurd hhold Bool.false_ne_true
        · rw [hs] at hold
          exact h.comp_alive k m0 x hs hold
      · rw [hxe]
        exact halive
    · rw [if_neg hk'] at hm
      exact h.comp_alive k' m x hm hhd

theorem RegInv_unbind {κ V : Type} [DecidableEq κ] {r : Registry κ V} (h : RegInv r)
    (k : κ) (e : Nat) : RegInv (r.unbind k e).1 := by
  unfold Registry.unbind
  rcases hs : r.stores k with - | m0
  · exact h
  simp only
  refine ⟨h.lenLe, h.chain, ?_, ?_⟩
  · intro k' m hm
    simp only at hm
    by_cases hk' : k' = k
    · rw [if_pos hk'] at hm
      rw [← Option.some_inj.mp hm]
      exact SSInv_unbind (h.stores_inv k m0 hs) e
    · rw [if_neg hk'] at hm
      exact h.stores_inv k' m hm
  · intro k' m x hm hhd
    simp only at hm
    by_cases hk' : k' = k
    · rw [if_pos hk'] at hm
      rw [← Option.some_inj.mp hm] at hhd
      have := (has_data_unbind (h.stores_inv k m0 hs) e x).mp hhd
      exact h.comp_alive k m0 x hs this.1
    · rw [if_neg hk'] at hm
      exact h.comp_alive k' m x hm hhd

/-- Every reachable registry state satisfies the registry invariant. -/
theorem reachable_inv {κ V : Type} [DecidableEq κ] {r : Registry κ V}
    (h : Reachable r) : RegInv r := by
  induction h with
  | init => exact RegInv_empty
  | step hr hval ih =>
    rename_i r' op
    cases op with
    | make => exact RegInv_make ih hval
    | kill e => exact RegInv_kill ih e
    | bindc k e v => exact RegInv_bind ih k e v
    | unbindc k e => exact RegInv_unbind ih k e

/-- The result error of the store-level `bind` depends only on the null
check; both mutation branches succeed. -/
theorem bind_snd {V : Type} (s : SSet V) (key : Nat) (v : V) :
    (s.bind key v).2 = if is_null_key key then some BindError.INVALID_KEY else none := by
  rw [bind_eq_grown]
  by_cases hnull : is_null_key key = true
  · rw [if_pos hnull, if_pos hnull]
  · rw [if_neg hnull, if_neg hnull]
    simp only
    split <;> rfl

/-- A concrete reachable registry used by the witnesses: one live entity
`0` carrying component `0 ↦ 42`. -/
def regW : Registry Nat Nat :=
  (Registry.empty.apply .make).apply (.bindc 0 0 42)

theorem regW_reachable : Reachable regW :=
  Reachable.step (Reachable.step Reachable.init (by show (0 : Nat) < MAX_ID; decide))
    (by show (0 : Nat) ≤ MAX_ID; decide)

/-- C10 (confirmed): in every reachable registry state, an entity that has
a component of any type is alive; dead slots (whose cells store free-list
links) never have a component bound in any store. -/
theorem C10_has_component_implies_alive {κ V : Type} [DecidableEq κ] {r : Registry κ V}
    (h : Reachable r) (k : κ) (e : Nat) (hc : r.has_component k e = true) :
    r.is_alive e = true := by
  have hinv := reachable_inv h
  unfold Registry.has_component at hc
  rcases hs : r.stores k with - | m
  · rw [hs] at hc
    exact absurd hc Bool.false_ne_true
  · rw [hs] at hc
    exact hinv.comp_alive k m e hs hc

theorem C10_has_component_implies_alive_witness :
    regW.has_component 0 0 = true ∧ regW.is_alive 0 = true :=
  ⟨by decide, C10_has_component_implies_alive regW_reachable 0 0 (by decide)⟩

/-- C7 (confirmed): in every reachable registry state, a `bind` call that
returns an error (`DeadEntity`; `InvalidKey` cannot occur because a live
entity id is never `MAX_ID` in a reachable state) leaves the registry —
entity array, free-list head and all stores — unchanged. -/
theorem C7_bind_error_no_mutation {κ V : Type} [DecidableEq κ] {r : Registry κ V}
    (h : Reachable r) (k : κ) (e : Nat) (v : V)
    (herr : (r.bind k e v).2.isSome = true) : (r.bind k e v).1 = r := by
  have hinv := reachable_inv h
  unfold Registry.bind
  rcases halive : r.is_alive e with - | -
  · simp only [Bool.not_false, if_true]
  · exfalso
    have hemax : e < MAX_ID := hinv.alive_lt_max halive
    have hnull : is_null_key e = false := by
      simp [is_null_key]
      omega
    unfold Registry.bind at herr
    rw [halive] at herr
    simp only [Bool.not_true, Bool.false_eq_true, if_false] at herr
    rw [bind_snd, hnull] at herr
    simp at herr

theorem C7_bind_error_no_mutation_witness :
    ((Registry.empty : Registry Nat Nat).bind 0 5 42).2.isSome = true ∧
    ((Registry.empty : Registry Nat Nat).bind 0 5 42).1 = Registry.empty :=
  ⟨by decide, C7_bind_error_no_mutation Reachable.init 0 5 42 (by decide)⟩

/-- C6 (confirmed): `kill_entity` on a dead entity leaves the whole
registry unchanged; on a live entity it leaves the entity dead and, for
every component type whose store exists, without a component. -/
theorem C6_kill_entity {κ V : Type} [DecidableEq κ] {r : Registry κ V}
    (h : Reachable r) (e : Nat) :
    (r.is_alive e = false → r.kill_entity e = r) ∧
    (r.is_alive e = true → (r.kill_entity e).is_alive e = false ∧
      ∀ k m', (r.kill_entity e).stores k = some m' → m'.has_data e = false) := by
  have hinv := reachable_inv h
  constructor
  · intro hdead
    unfold Registry.kill_entity
    rw [hdead]
    simp
  · intro halive
    have hcur_ne : r.current ≠ e := by
      intro hEq
      rcases hinv.current_dead with hcd | hcd
      · rw [hEq] at hcd
        have := hinv.alive_lt_max halive
        omega
      · rw [hEq] at hcd
        rw [is_alive_iff] at halive
        exact hcd.2 halive.2
    rw [is_alive_iff] at halive
    constructor
    · unfold Registry.kill_entity
      rw [if_pos (by rw [is_alive_iff]; exact halive)]
      rw [← Bool.not_eq_true, is_alive_iff]
      intro hcon
      show False
      have hget : ((r.mark_as_death e).delete_all_components e).entities.getD e 0 =
          r.current := by
        simp only [Registry.delete_all_components, Registry.mark_as_death]
        exact getD_set_self _ _ _ _ halive.1
      rw [hget] at hcon
      exact hcur_ne hcon.2
    · intro k m' hm'
      unfold Registry.kill_entity at hm'
      rw [if_pos (by rw [is_alive_iff]; exact halive)] at hm'
      simp only [Registry.delete_all_components, Registry.mark_as_death] at hm'
      rcases hs : r.stores k with - | m0
      · rw [hs] at hm'
        simp at hm'
      · rw [hs] at hm'
        simp only [Option.map] at hm'
        rw [← Option.some_inj.mp hm']
        simp only [SSet.delete_component]
        exact has_data_unbind_self m0 e

theorem C6_kill_entity_witness :
    regW.is_alive 0 = true ∧ ((regW.kill_entity 0).is_alive 0 = false ∧
      ∀ k m', (regW.kill_entity 0).stores k = some m' → m'.has_data 0 = false) :=
  ⟨by decide, (C6_kill_entity regW_reachable 0).2 (by decide)⟩

/-! ### Filtering the entity array

`entities_with_component` and `with_components` run `copy_if` over the
values of `entities_`.  In an invariant state every surviving value sits
at its own index, so the output equals a filter of `range (len)` and is
therefore strictly sorted. -/

theorem filter_range_of_fixed (p : Nat → Bool) :
    ∀ (l : List Nat) (n : Nat),
      (∀ i, (h : i < l.length) → p (l.get ⟨i, h⟩) = true → l.get ⟨i, h⟩ = n + i) →
      (∀ j, n ≤ j → j < n + l.length → p j = true → l.getD (j - n) 0 = j) →
      l.filter p = (List.range' n l.length).filter p := by
  intro l
  induction l with
  | nil => intro n _ _; rfl
  | cons a t ih =>
    intro n hA hB
    have hA0 : p a = true → a = n := by
      intro hp
      have := hA 0 (by simp) hp
      simpa using this
    simp only [List.length_cons]
    rw [List.range'_succ]
    rcases hp : p a with - | -
    · have hpn : p n = false := by
        rcases hq : p n with - | -
        · rfl
        · exfalso
          have := hB n (Nat.le_refl n) (by simp) hq
          simp only [Nat.sub_self] at this
          have ha : a = n := by simpa using this
          rw [ha] at hp
          rw [hp] at hq
          exact Bool.noConfusion hq
      rw [List.filter_cons, List.filter_cons, hp, hpn]
      simp only [Bool.false_eq_true, if_false]
      apply ih (n + 1)
      · intro i hi hpi
        have := hA (i + 1) (by simpa using Nat.succ_lt_succ hi) (by simpa using hpi)
        simp only [List.get_cons_succ] at this
        rw [this]
        omega
      · intro j hj1 hj2 hpj
        have := hB j (by omega) (by simp only [List.length_cons]; omega) hpj
        have hj1' : 1 ≤ j - n := by omega
        rcases hsub : j - n with - | jm
        · omega
        · rw [hsub] at this
          simp only [List.getD, List.get?] at this ⊢
          have hjm : jm = j - (n + 1) := by omega
          rw [← hjm]
          exact this
    · have ha : a = n := hA0 hp
      have hpn : p n = true := by rw [← ha]; exact hp
      rw [List.filter_cons, List.filter_cons, hp, hpn]
      simp only [if_true]
      rw [ha]
      congr 1
      apply ih (n + 1)
      · intro i hi hpi
        have := hA (i + 1) (by simpa using Nat.succ_lt_succ hi) (by simpa using hpi)
        simp only [List.get_cons_succ] at this
        rw [this]
        omega
      · intro j hj1 hj2 hpj
        have := hB j (by omega) (by simp only [List.length_cons]; omega) hpj
        have hj1' : 1 ≤ j - n := by omega
        rcases hsub : j - n with - | jm
        · omega
        · rw [hsub] at this
          simp only [List.getD, List.get?] at this ⊢
          have hjm : jm = j - (n + 1) := by omega
          rw [← hjm]
          exact this

/-- In an invariant state, filtering the entity-array values with a
predicate that only holds for live ids equals filtering the index range:
every surviving value sits at its own index. -/
theorem entities_filter_eq {κ V : Type} {r : Registry κ V} (hinv : RegInv r)
    (p : Nat → Bool) (hpa : ∀ x, p x = true → r.is_alive x = true) :
    r.entities.filter p = (List.range r.entities.length).filter p := by
  rw [List.range_eq_range']
  apply filter_range_of_fixed
  · intro i hi hp
    rw [← getD_eq_get _ _ 0 hi] at hp ⊢
    rcases heq : r.entities.getD i 0 == i with - | -
    · exfalso
      have hne : r.entities.getD i 0 ≠ i := by
        intro hcon
        rw [hcon] at heq
        simp at heq
      have hdead := hinv.link_not_alive hi hne
      have halive := hpa _ hp
      rw [halive] at hdead
      exact Bool.noConfusion hdead
    · have : r.entities.getD i 0 = i := by simpa using heq
      omega
  · intro j _ hj hp
    have halive := hpa _ hp
    rw [is_alive_iff] at halive
    simpa using halive.2

/-- Variant of the invariant consequence `has_component → is_alive` for
direct use. -/
theorem RegInv.has_component_alive {κ V : Type} {r : Registry κ V} (hinv : RegInv r)
    {k : κ} {e : Nat} (hc : r.has_component k e = true) : r.is_alive e = true := by
  unfold Registry.has_component at hc
  rcases hs : r.stores k with - | m
  · rw [hs] at hc
    exact absurd hc Bool.false_ne_true
  · rw [hs] at hc
    exact hinv.comp_alive k m e hs hc

/-! Facts about `sdAux` / `set_difference`. -/

theorem sdAux_sublist : ∀ (fuel : Nat) (l1 l2 : List Nat), (sdAux fuel l1 l2).Sublist l1 := by
  intro fuel
  induction fuel with
  | zero =>
    intro l1 l2
    cases l1 with
    | nil => exact List.Sublist.refl _
    | cons x xs => exact List.Sublist.refl _
  | succ f ih =>
    intro l1 l2
    cases l1 with
    | nil => exact List.Sublist.refl _
    | cons x xs =>
      cases l2 with
      | nil => exact List.Sublist.cons₂ x (ih xs [])
      | cons y ys =>
        show (sdAux (f + 1) (x :: xs) (y :: ys)).Sublist (x :: xs)
        unfold sdAux
        by_cases hxy : x < y
        · rw [if_pos hxy]
          exact List.Sublist.cons₂ x (ih xs (y :: ys))
        · rw [if_neg hxy]
          by_cases hyx : y < x
          · rw [if_pos hyx]
            exact ih (x :: xs) ys
          · rw [if_neg hyx]
            exact (ih xs ys).trans (List.sublist_cons_self x xs)

theorem set_difference_sublist (l1 l2 : List Nat) : (set_difference l1 l2).Sublist l1 :=
  sdAux_sublist _ l1 l2

theorem sorted_cons_le {x : Nat} {xs : List Nat} (h : List.Sorted (· < ·) (x :: xs)) :
    ∀ b ∈ x :: xs, x ≤ b := by
  intro b hb
  rcases List.mem_cons.mp hb with hb | hb
  · omega
  · have := (List.sorted_cons.mp h).1 b hb
    omega

theorem sdAux_mem : ∀ (fuel : Nat) (l1 l2 : List Nat),
    l1.length + l2.length ≤ fuel → List.Sorted (· < ·) l1 → List.Sorted (· < ·) l2 →
    ∀ x, x ∈ sdAux fuel l1 l2 ↔ (x ∈ l1 ∧ x ∉ l2) := by
  intro fuel
  induction fuel with
  | zero =>
    intro l1 l2 hf _ _ x
    have h1 : l1 = [] := List.eq_nil_of_length_eq_zero (by omega)
    subst h1
    simp [sdAux]
  | succ f ih =>
    intro l1 l2 hf h1 h2 x
    cases l1 with
    | nil => simp [sdAux]
    | cons a xs =>
      cases l2 with
      | nil =>
        show x ∈ a :: sdAux f xs [] ↔ _
        rw [List.mem_cons, ih xs [] (by simp at hf ⊢; omega) (List.sorted_cons.mp h1).2
          List.sorted_nil]
        simp [List.mem_cons]
      | cons y ys =>
        have hxs_sorted := (List.sorted_cons.mp h1).2
        have hys_sorted := (List.sorted_cons.mp h2).2
        simp only [List.length_cons] at hf
        show x ∈ sdAux (f + 1) (a :: xs) (y :: ys) ↔ _
        unfold sdAux
        by_cases hxy : a < y
        · rw [if_pos hxy]
          rw [List.mem_cons, ih xs (y :: ys) (by simp; omega) hxs_sorted h2]
          constructor
          · intro hx
            rcases hx with hx | hx
            · subst hx
              refine ⟨List.mem_cons_self _ _, ?_⟩
              intro hmem
              have := sorted_cons_le h2 x hmem
              omega
            · exact ⟨List.mem_cons_of_mem a hx.1, hx.2⟩
          · intro hx
            rcases List.mem_cons.mp hx.1 with hhd | htl
            · left; exact hhd
            · right; exact ⟨htl, hx.2⟩
        · rw [if_neg hxy]
          by_cases hyx : y < a
          · rw [if_pos hyx]
            rw [ih (a :: xs) ys (by simp; omega) h1 hys_sorted]
            constructor
            · intro hx
              refine ⟨hx.1, ?_⟩
              intro hmem
              rcases List.mem_cons.mp hmem with hhd | htl
              · have := sorted_cons_le h1 x hx.1
                omega
              · exact hx.2 htl
            · intro hx
              exact ⟨hx.1, fun hmem => hx.2 (List.mem_cons_of_mem y hmem)⟩
          · rw [if_neg hyx]
            have hay : a = y := by omega
            rw [ih xs ys (by omega) hxs_sorted hys_sorted]
            constructor
            · intro hx
              have hxa : a < x := (List.sorted_cons.mp h1).1 x hx.1
              refine ⟨List.mem_cons_of_mem a hx.1, ?_⟩
              intro hmem
              rcases List.mem_cons.mp hmem with hhd | htl
              · omega
              · exact hx.2 htl
            · intro hx
              have hxny : x ≠ y := fun hEq => hx.2 (hEq ▸ List.mem_cons_self y ys)
              rcases List.mem_cons.mp hx.1 with hhd | htl
              · exact absurd (hay ▸ hhd) hxny
              · exact ⟨htl, fun hmem => hx.2 (List.mem_cons_of_mem y hmem)⟩

theorem set_difference_mem {l1 l2 : List Nat} (h1 : List.Sorted (· < ·) l1)
    (h2 : List.Sorted (· < ·) l2) (x : Nat) :
    x ∈ set_difference l1 l2 ↔ (x ∈ l1 ∧ x ∉ l2) :=
  sdAux_mem _ l1 l2 (Nat.le_refl _) h1 h2 x

/-- C9 (confirmed): `entities_with_component<T>` returns the empty list
when no T-store exists; otherwise exactly the live entity ids the T-store
has data for, in strictly ascending order (hence without dead ids and
without duplicates). -/
theorem C9_entities_with_component {κ V : Type} [DecidableEq κ] {r : Registry κ V}
    (h : Reachable r) (k : κ) :
    List.Sorted (· < ·) (r.entities_with_component k) ∧
    (∀ x, x ∈ r.entities_with_component k ↔
      (r.is_alive x = true ∧ r.has_component k x = true)) := by
  have hinv := reachable_inv h
  unfold Registry.entities_with_component
  rcases hs : r.stores k with - | m
  · refine ⟨List.sorted_nil, ?_⟩
    intro x
    simp only [List.not_mem_nil, false_iff, not_and]
    intro _
    unfold Registry.has_component
    rw [hs]
    exact Bool.false_ne_true
  · have hpa : ∀ x, m.has_data x = true → r.is_alive x = true := by
      intro x hx
      exact hinv.comp_alive k m x hs hx
    show List.Sorted (· < ·) (List.filter (fun e => m.has_data e) r.entities) ∧
      (∀ x, x ∈ List.filter (fun e => m.has_data e) r.entities ↔
        (r.is_alive x = true ∧ r.has_component k x = true))
    rw [entities_filter_eq hinv (fun e => m.has_data e) hpa]
    constructor
    · exact (List.sorted_lt_range _).filter _
    · intro x
      rw [List.mem_filter, List.mem_range]
      constructor
      · intro hx
        refine ⟨hpa x hx.2, ?_⟩
        unfold Registry.has_component
        rw [hs]
        exact hx.2
      · intro hx
        have hhd : m.has_data x = true := by
          have := hx.2
          unfold Registry.has_component at this
          rw [hs] at this
          exact this
        have halive := hx.1
        rw [is_alive_iff] at halive
        exact ⟨halive.1, hhd⟩

theorem C9_entities_with_component_witness :
    List.Sorted (· < ·) (regW.entities_with_component 0) ∧
    (∀ x, x ∈ regW.entities_with_component 0 ↔
      (regW.is_alive x = true ∧ regW.has_component 0 x = true)) :=
  C9_entities_with_component regW_reachable 0

/-- Characterisation of `with_components` on an invariant state: for a
non-empty type list it is the strictly sorted list of live entities having
every listed component. -/
theorem with_components_char {κ V : Type} [DecidableEq κ] {r : Registry κ V}
    (hinv : RegInv r) (ks : List κ) :
    List.Sorted (· < ·) (r.with_components ks) ∧
    (∀ x, x ∈ r.with_components ks ↔
      (ks ≠ [] ∧ r.is_alive x = true ∧ ∀ k ∈ ks, r.has_component k x = true)) := by
  unfold Registry.with_components
  by_cases hkeq : ks = []
  · subst hkeq
    refine ⟨?_, ?_⟩
    · show List.Sorted (· < ·) ([] : List Nat)
      exact List.sorted_nil
    · intro x
      show x ∈ ([] : List Nat) ↔ _
      simp
  · have hkne : ks ≠ [] := hkeq
    have hks : ks.isEmpty = false := by
      rcases ks with - | ⟨k0, ktl⟩
      · exact absurd rfl hkne
      · rfl
    rw [if_neg (by rw [hks]; exact Bool.false_ne_true)]
    have hpa : ∀ x, ks.all (fun k => r.has_component k x) = true → r.is_alive x = true := by
      intro x hx
      rcases ks with - | ⟨k0, ktl⟩
      · exact absurd rfl hkne
      · exact hinv.has_component_alive
          ((List.all_eq_true.mp hx) k0 (List.mem_cons_self k0 ktl))
    rw [entities_filter_eq hinv _ hpa]
    refine ⟨(List.sorted_lt_range _).filter _, ?_⟩
    intro x
    rw [List.mem_filter, List.mem_range]
    constructor
    · intro hx
      exact ⟨hkne, hpa x hx.2, List.all_eq_true.mp hx.2⟩
    · intro hx
      have halive := hx.2.1
      rw [is_alive_iff] at halive
      exact ⟨halive.1, List.all_eq_true.mpr hx.2.2⟩

/-- When an entity has a component, `get_component` returns a present
value (so `optional::value()` in `convert_and_unwrapp` cannot throw). -/
theorem get_component_isSome {κ V : Type} {r : Registry κ V} (hinv : RegInv r)
    {k : κ} {e : Nat} (hc : r.has_component k e = true) :
    (r.get_component k e).isSome = true := by
  unfold Registry.has_component at hc
  unfold Registry.get_component
  rcases hs : r.stores k with - | m
  · rw [hs] at hc
    exact absurd hc Bool.false_ne_true
  · rw [hs] at hc
    exact get_data_isSome (hinv.stores_inv k m hs) e hc

/-- A concrete registry refuting the union-exclusion reading of `query`:
entities `0` and `1` are alive, both have component type `0`; entity `0`
additionally has component type `1`.  Querying with must-have `W = [0]`
and must-not-have `B = [1, 2]` keeps entity `0`, because the code excludes
only entities having all of `B` (it reuses `with_components`, a
conjunction), not the union of the per-type entity sets. -/
def c1reg : Registry Nat Nat :=
  ((((Registry.empty.apply .make).apply .make).apply (.bindc 0 0 99)).apply
    (.bindc 0 1 99)).apply (.bindc 1 0 77)

/-- C1 counterexample: with `W = [0]`, `B = [1, 2]` the result ids are
`[0, 1]`, although entity `0` is alive and has component type `1 ∈ B`; the
claimed characterisation (exclude every entity having some `T ∈ B`)
demands `[1]`. -/
theorem C1_query_union_counterexample :
    c1reg.query_ids [0] [1, 2] = [0, 1] ∧
    c1reg.is_alive 0 = true ∧
    c1reg.has_component 1 0 = true := by decide

/-- C1 amended: the result ids of `query` are exactly the live entities
having every type of `W` and, when `B` is non-empty, not having all of
the types of `B` simultaneously (the excluded set is the intersection over
`B`, not the union), listed in strictly ascending id order; an empty `W`
gives an empty result. -/
theorem C1_query_ids_char {κ V : Type} [DecidableEq κ] {r : Registry κ V}
    (h : Reachable r) (W B : List κ) :
    List.Sorted (· < ·) (r.query_ids W B) ∧
    ∀ x, x ∈ r.query_ids W B ↔
      (W ≠ [] ∧ r.is_alive x = true ∧ (∀ k ∈ W, r.has_component k x = true) ∧
        ¬(B ≠ [] ∧ ∀ k ∈ B, r.has_component k x = true)) := by
  have hinv := reachable_inv h
  have hw := with_components_char hinv W
  have hb := with_components_char hinv B
  constructor
  · exact List.Pairwise.sublist (set_difference_sublist _ _) hw.1
  · intro x
    unfold Registry.query_ids
    rw [set_difference_mem hw.1 hb.1 x, hw.2 x, hb.2 x]
    constructor
    · intro hx
      exact ⟨hx.1.1, hx.1.2.1, hx.1.2.2,
        fun hcon => hx.2 ⟨hcon.1, hx.1.2.1, hcon.2⟩⟩
    · intro hx
      exact ⟨⟨hx.1, hx.2.1, hx.2.2.1⟩,
        fun hcon => hx.2.2.2 ⟨hcon.1, hcon.2.2⟩⟩

theorem C1_query_ids_char_witness :
    List.Sorted (· < ·) (regW.query_ids [0] []) ∧
    ∀ x, x ∈ regW.query_ids [0] [] ↔
      (([0] : List Nat) ≠ [] ∧ regW.is_alive x = true ∧
        (∀ k ∈ ([0] : List Nat), regW.has_component k x = true) ∧
        ¬(([] : List Nat) ≠ [] ∧ ∀ k ∈ ([] : List Nat), regW.has_component k x = true)) :=
  C1_query_ids_char regW_reachable [0] []

/-- C2 counterexample: in `regW` the only entity is `0` with component
`0 ↦ 42`.  The query tuple for it is `[some 42]`: it has arity `|W| = 1`,
not `1 + |W|`, and does not carry the entity id `0` — `QueryResult`
(`types.h`) is a vector of tuples of component references only, and
`convert_and_unwrapp` builds `make_tuple(get_component<List>(e).value()...)`
with no id entry.  (The repository's own query test only "matches" ids
because the `uint32_t` component value bound to each entity equals its
id.) -/
theorem C2_query_tuple_no_id_counterexample :
    regW.query [0] [] = [[some 42]] ∧
    regW.query_ids [0] [] = [0] ∧
    (∀ t ∈ regW.query [0] [], t.length = 1 ∧ t.length ≠ 2 ∧ some 0 ∉ t) := by decide

/-- C2 amended: for every reachable state, each element of the `query`
result is the tuple of one present component reference per must-have type,
in `W` order — the `Ti` component currently bound to the corresponding
surviving id — with no leading entity id. -/
theorem C2_query_tuples {κ V : Type} [DecidableEq κ] {r : Registry κ V}
    (h : Reachable r) (W B : List κ) :
    r.query W B = (r.query_ids W B).map (fun e => W.map (fun k => r.get_component k e)) ∧
    ∀ e ∈ r.query_ids W B, ∀ k ∈ W, (r.get_component k e).isSome = true := by
  have hinv := reachable_inv h
  refine ⟨rfl, ?_⟩
  intro e he k hk
  have hw := with_components_char hinv W
  have hb := with_components_char hinv B
  unfold Registry.query_ids at he
  rw [set_difference_mem hw.1 hb.1 e, hw.2 e] at he
  exact get_component_isSome hinv (he.1.2.2 k hk)

theorem C2_query_tuples_witness :
    (regW.query [0] [] =
      (regW.query_ids [0] []).map (fun e => [0].map (fun k => regW.get_component k e))) ∧
    ∀ e ∈ regW.query_ids [0] [], ∀ k ∈ ([0] : List Nat),
      (regW.get_component k e).isSome = true :=
  C2_query_tuples regW_reachable [0] []

/-! ### Entity recycling order (claim C5) -/

/-- Call `make_entity` a number of times, collecting the returned ids. -/
def Registry.makeN {κ V : Type} : Registry κ V → Nat → List Nat × Registry κ V
  | r, 0 => ([], r)
  | r, n + 1 =>
    let p := r.make_entity
    let q := Registry.makeN p.2 n
    (p.1 :: q.1, q.2)

/-- Call `kill_entity` on each id of a list in order. -/
def Registry.killAll {κ V : Type} (r : Registry κ V) (ks : List Nat) : Registry κ V :=
  ks.foldl Registry.kill_entity r

theorem makeN_succ_right {κ V : Type} :
    ∀ (n : Nat) (r : Registry κ V),
      Registry.makeN r (n + 1) =
        ((Registry.makeN r n).1 ++ [(Registry.makeN r n).2.make_entity.1],
          (Registry.makeN r n).2.make_entity.2) := by
  intro n
  induction n with
  | zero => intro r; rfl
  | succ n ih =>
    intro r
    show (r.make_entity.1 :: (Registry.makeN r.make_entity.2 (n + 1)).1,
        (Registry.makeN r.make_entity.2 (n + 1)).2) = _
    rw [ih r.make_entity.2]
    rfl

/-- Effect of killing a live entity on the allocator part of the state. -/
theorem kill_alloc {κ V : Type} {r : Registry κ V} {e : Nat}
    (halive : r.is_alive e = true) :
    (r.kill_entity e).entities = r.entities.set e r.current ∧
    (r.kill_entity e).current = e := by
  unfold Registry.kill_entity
  rw [if_pos halive]
  exact ⟨rfl, rfl⟩

/-- Killing one entity does not change the liveness of another. -/
theorem kill_alive_other {κ V : Type} (r : Registry κ V) {e x : Nat} (hne : x ≠ e) :
    (r.kill_entity e).is_alive x = r.is_alive x := by
  unfold Registry.kill_entity
  rcases halive : r.is_alive e with - | -
  · simp
  · simp only [eq_self_iff_true, if_true]
    unfold Registry.is_alive
    simp only [Registry.delete_all_components, Registry.mark_as_death]
    simp only [List.length_set, getD_set_other _ _ _ _ _ (fun hEq => hne hEq.symm)]

/-- The round trip: killing distinct live entities `k1 … kn` and then
calling `make_entity` `n` times returns `kn, …, k1` and restores the
allocator (entity array and free-list head) exactly. -/
theorem killAll_makeN {κ V : Type} :
    ∀ (ks : List Nat) (r : Registry κ V),
      r.entities.length ≤ MAX_ID → ks.Nodup → (∀ k ∈ ks, r.is_alive k = true) →
      (Registry.makeN (r.killAll ks) ks.length).1 = ks.reverse ∧
      (Registry.makeN (r.killAll ks) ks.length).2.current = r.current ∧
      (Registry.makeN (r.killAll ks) ks.length).2.entities = r.entities := by
  intro ks
  induction ks with
  | nil =>
    intro r _ _ _
    exact ⟨rfl, rfl, rfl⟩
  | cons k ks ih =>
    intro r hlen hnd halive
    have hkalive : r.is_alive k = true := halive k (List.mem_cons_self k ks)
    have hkin := (is_alive_iff r k).mp hkalive
    have hfold : r.killAll (k :: ks) = (r.kill_entity k).killAll ks := rfl
    have hlen' : (r.kill_entity k).entities.length ≤ MAX_ID := by
      rw [(kill_alloc hkalive).1, List.length_set]
      exact hlen
    rw [List.nodup_cons] at hnd
    have halive' : ∀ j ∈ ks, (r.kill_entity k).is_alive j = true := by
      intro j hj
      rw [kill_alive_other r (fun hEq => hnd.1 (by rw [← hEq]; exact hj))]
      exact halive j (List.mem_cons_of_mem k hj)
    obtain ⟨hids, hcur, hent⟩ := ih (r.kill_entity k) hlen' hnd.2 halive'
    have hkmax : k < MAX_ID := by omega
    set f := (Registry.makeN ((r.kill_entity k).killAll ks) ks.length).2 with hf
    rw [(kill_alloc hkalive).2] at hcur
    rw [(kill_alloc hkalive).1] at hent
    have hmake : f.make_entity = (k, { f with current := r.current, entities := r.entities }) := by
      unfold Registry.make_entity
      rw [hcur, if_neg (by omega)]
      unfold Registry.recycle_entity
      rw [hcur, hent]
      rw [getD_set_self _ _ _ _ hkin.1, List.set_set]
      have hset : r.entities.set k k = r.entities := by
        nth_rewrite 2 [← hkin.2]
        exact set_getD_self _ _ _ hkin.1
      rw [hset]
    rw [hfold]
    show (Registry.makeN ((r.kill_entity k).killAll ks) (ks.length + 1)).1 =
        (k :: ks).reverse ∧
      (Registry.makeN ((r.kill_entity k).killAll ks) (ks.length + 1)).2.current =
        r.current ∧
      (Registry.makeN ((r.kill_entity k).killAll ks) (ks.length + 1)).2.entities =
        r.entities
    rw [makeN_succ_right, hids, ← hf, hmake]
    refine ⟨?_, rfl, rfl⟩
    rw [List.reverse_cons]

/-- With an empty free list, repeated `make_entity` returns fresh ids
ascending from the current array length. -/
theorem makeN_fresh {κ V : Type} :
    ∀ (m : Nat) (r : Registry κ V), r.current = MAX_ID →
      (Registry.makeN r m).1 = List.range' r.entities.length m ∧
      (Registry.makeN r m).2.current = MAX_ID := by
  intro m
  induction m with
  | zero => intro r _; exact ⟨rfl, by assumption⟩
  | succ n ih =>
    intro r hcur
    have hmake : r.make_entity =
        (r.entities.length, { r with entities := r.entities ++ [r.entities.length] }) := by
      unfold Registry.make_entity
      rw [if_pos hcur]
      rfl
    show r.make_entity.1 :: (Registry.makeN r.make_entity.2 n).1 =
        List.range' r.entities.length (n + 1) ∧
      (Registry.makeN r.make_entity.2 n).2.current = MAX_ID
    rw [hmake]
    obtain ⟨hids, hcur'⟩ := ih { r with entities := r.entities ++ [r.entities.length] } hcur
    rw [List.range'_succ]
    refine ⟨?_, hcur'⟩
    simp only [hids, List.length_append, List.length_cons, List.length_nil]

/-- The concrete registry refuting the unconditional "subsequent calls are
fresh" part of the recycling claim: two entities are created and entity
`0` is killed, so the free list already holds `0` before the kill
sequence `ks = [1]` starts. -/
def c5reg : Registry Nat Nat :=
  ((Registry.empty.apply .make).apply .make).apply (.kill 0)

/-- C5 counterexample: from `c5reg` (free list `[0]`, array length `2`),
killing the single live entity `1` and making once returns `[1]` as the
claim says, but the next `make_entity` returns the previously freed `0`,
not a fresh id ascending from the array length `2`. -/
theorem C5_recycle_counterexample :
    (∀ k ∈ ([1] : List Nat), c5reg.is_alive k = true) ∧
    ([1] : List Nat).Nodup ∧
    (Registry.makeN (c5reg.killAll [1]) 1).1 = [1] ∧
    c5reg.entities.length = 2 ∧
    (Registry.makeN (Registry.makeN (c5reg.killAll [1]) 1).2 1).1 = [0] ∧
    ([0] : List Nat) ≠ List.range' 2 1 := by decide

/-- C5 amended: for every registry state with a `uint32_t`-sized entity
array, killing distinct live entities `k1, …, kn` with no intervening
`make_entity` makes the next `n` `make_entity` calls return
`kn, …, k1` in exactly that order; and when the free list was empty
(`current_ == MAX_ID`) before the kills, every subsequent `make_entity`
returns fresh ids ascending from the previous array length.  (Without the
empty-free-list premise, subsequent calls continue recycling previously
freed ids, as the counterexample shows.) -/
theorem C5_recycle_lifo {κ V : Type} (r : Registry κ V) (ks : List Nat) (m : Nat)
    (hlen : r.entities.length ≤ MAX_ID) (hnd : ks.Nodup)
    (halive : ∀ k ∈ ks, r.is_alive k = true) :
    (Registry.makeN (r.killAll ks) ks.length).1 = ks.reverse ∧
    (r.current = MAX_ID →
      (Registry.makeN (Registry.makeN (r.killAll ks) ks.length).2 m).1 =
        List.range' r.entities.length m) := by
  obtain ⟨hids, hcur, hent⟩ := killAll_makeN ks r hlen hnd halive
  refine ⟨hids, ?_⟩
  intro hmax
  have hfresh := makeN_fresh m (Registry.makeN (r.killAll ks) ks.length).2
    (by rw [hcur]; exact hmax)
  rw [hent] at hfresh
  exact hfresh.1

theorem C5_recycle_lifo_witness :
    (((Registry.empty.apply .make).apply .make : Registry Nat Nat).entities.length ≤ MAX_ID ∧
      ([1, 0] : List Nat).Nodup ∧
      (∀ k ∈ ([1, 0] : List Nat),
        ((Registry.empty.apply .make).apply .make : Registry Nat Nat).is_alive k = true)) ∧
    (Registry.makeN
        ((((Registry.empty.apply .make).apply .make : Registry Nat Nat)).killAll [1, 0])
        ([1, 0] : List Nat).length).1 = ([1, 0] : List Nat).reverse ∧
    (((Registry.empty.apply .make).apply .make : Registry Nat Nat).current = MAX_ID →
      (Registry.makeN
        (Registry.makeN
          ((((Registry.empty.apply .make).apply .make : Registry Nat Nat)).killAll [1, 0])
          ([1, 0] : List Nat).length).2 2).1 =
        List.range'
          (((Registry.empty.apply .make).apply .make : Registry Nat Nat)).entities.length 2) :=
  ⟨⟨by decide, by decide, by decide⟩,
    C5_recycle_lifo ((Registry.empty.apply .make).apply .make) [1, 0] 2
      (by decide) (by decide) (by decide)⟩

end Entis
